import Mathlib

/-!
# Verification of the base-image governance core of kubeflow/pipelines-components

This development embeds, in Lean, the Python modules
`scripts/lib/base_image.py`, `scripts/lib/oci.py`, `scripts/lib/kfp_compilation.py`
and the base-image locator of `scripts/lib/parsing.py`, and proves (or refutes)
the specified properties of:

* allowlist validation (`is_valid_base_image`, `_is_allowlisted_image`),
* compiled-YAML document classification (`_load_compiled_yaml`),
* image extraction from compiled specs (`extract_base_images_from_pipeline_spec`),
* scratch-filename derivation (`_sanitize_module_name`),
* OCI tag validation (`validate_tag`) and the source rewriter (`override_file_images`).

Python strings are modelled as `List Char` (the sources handled are ASCII),
Python's `re` patterns as a small regular-expression type with Brzozowski
derivatives (`re.Pattern.match` = a match anchored at the start consuming some
prefix; `re.Pattern.fullmatch` = a match of the entire string), and YAML / parsed
Python values as the inductive `Yaml` below.
-/

set_option autoImplicit false

namespace PipelinesComponents

/-! ## Regular expressions (model of `re` as used by the sources)

`re.sub`, `re.match` and `re.fullmatch` are applied by the sources only to
ASCII data; character classes are modelled semantically as predicates. -/

/-- Regular expressions over `Char`.  `cls p` is a one-character class
(e.g. `\w` or `[\w.-]`). -/
inductive Regex where
  | emp : Regex
  | eps : Regex
  | cls (p : Char → Bool) : Regex
  | alt (r s : Regex) : Regex
  | cat (r s : Regex) : Regex
  | star (r : Regex) : Regex

/-- Does the regex accept the empty string? -/
def Regex.nullable : Regex → Bool
  | .emp => false
  | .eps => true
  | .cls _ => false
  | .alt r s => r.nullable || s.nullable
  | .cat r s => r.nullable && s.nullable
  | .star _ => true

/-- Brzozowski derivative by one character. -/
def Regex.deriv : Regex → Char → Regex
  | .emp, _ => .emp
  | .eps, _ => .emp
  | .cls p, c => if p c then .eps else .emp
  | .alt r s, c => .alt (r.deriv c) (s.deriv c)
  | .cat r s, c =>
      if r.nullable then .alt (.cat (r.deriv c) s) (s.deriv c)
      else .cat (r.deriv c) s
  | .star r, c => .cat (r.deriv c) (.star r)

/-- `re.Pattern.fullmatch`: the pattern matches the entire string. -/
def Regex.fullmatch (r : Regex) : List Char → Bool
  | [] => r.nullable
  | c :: s => (r.deriv c).fullmatch s

/-- `re.Pattern.match`: the pattern matches at position 0, consuming some
(possibly empty, possibly proper) prefix of the string. -/
def Regex.prefixmatch (r : Regex) : List Char → Bool
  | [] => r.nullable
  | c :: s => r.nullable || (r.deriv c).prefixmatch s

/-- `Regex.prefixmatch` succeeds exactly when some prefix of the input
full-matches; this connects `re.match` truthiness with `re.fullmatch`
on `List.take`. -/
theorem Regex.prefixmatch_iff_exists_take (r : Regex) (s : List Char) :
    r.prefixmatch s = true ↔ ∃ k : Nat, r.fullmatch (s.take k) = true := by
  induction s generalizing r with
  | nil =>
      simp only [prefixmatch, List.take_nil]
      constructor
      · intro h; exact ⟨0, h⟩
      · rintro ⟨k, hk⟩; exact hk
  | cons c t ih =>
      simp only [prefixmatch, Bool.or_eq_true]
      constructor
      · rintro (h | h)
        · exact ⟨0, by simpa [Regex.fullmatch] using h⟩
        · obtain ⟨k, hk⟩ := (ih (r.deriv c)).1 h
          exact ⟨k + 1, by simpa [Regex.fullmatch] using hk⟩
      · rintro ⟨k, hk⟩
        cases k with
        | zero => exact Or.inl (by simpa [Regex.fullmatch] using hk)
        | succ k =>
            exact Or.inr ((ih (r.deriv c)).2 ⟨k, by simpa [Regex.fullmatch] using hk⟩)

/-! ## Allowlist validation (`scripts/lib/base_image.py`)

```python
@dataclass(frozen=True)
class BaseImageAllowlist:
    allowed_images: frozenset[str]
    allowed_image_patterns: tuple[re.Pattern[str], ...]

def _is_allowlisted_image(image, allowlist):
    if image in allowlist.allowed_images:
        return True
    return any(p.match(image) for p in allowlist.allowed_image_patterns)

def is_valid_base_image(image, allowlist=None):
    if not image:
        return True
    if allowlist is not None:
        return _is_allowlisted_image(image, allowlist)
    return False
```
-/

/-- `BaseImageAllowlist`: exact image strings plus compiled patterns. -/
structure BaseImageAllowlist where
  allowed_images : List (List Char)
  allowed_image_patterns : List Regex

/-- `_is_allowlisted_image` — membership of the exact string, else
`p.match(image)` (start-anchored, prefix-consuming) over the patterns. -/
def _is_allowlisted_image (image : List Char) (allowlist : BaseImageAllowlist) : Bool :=
  if image ∈ allowlist.allowed_images then true
  else allowlist.allowed_image_patterns.any fun p => p.prefixmatch image

/-- `is_valid_base_image` — empty (falsy) image is valid; with an allowlist
present, defer to `_is_allowlisted_image`; with no allowlist, invalid. -/
def is_valid_base_image (image : List Char) (allowlist : Option BaseImageAllowlist) : Bool :=
  if image.isEmpty then true
  else
    match allowlist with
    | some a => _is_allowlisted_image image a
    | none => false

/-- C1 (counterexample): the claim "`is_valid_base_image` returns `True` iff the
image is empty, an exact allowlist member, or *full-matched* by a pattern" is
false on the code: with the allowlist `{allowed_images: {}, patterns: [/a/]}`
and the image `"ab"`, the code returns `True` (because `re.Pattern.match` only
requires a match at the start, here of the proper prefix `"a"`), while no
pattern full-matches `"ab"`. -/
theorem c1_fullmatch_counterexample :
    ¬ (is_valid_base_image ['a', 'b'] (some ⟨[], [Regex.cls (fun c => c = 'a')]⟩) = true ↔
        (['a', 'b'] = ([] : List Char) ∨
          ['a', 'b'] ∈ ([] : List (List Char)) ∨
          ∃ p ∈ [Regex.cls (fun c => c = 'a')], p.fullmatch ['a', 'b'] = true)) := by
  decide

/-- C1 (amended): for every image string and allowlist, `is_valid_base_image`
returns `True` iff the image is the empty string, or an exact member of
`allowed_images`, or at least one `allowed_image_patterns` entry matches *at the
start* of the image — i.e. full-matches some (possibly proper) prefix
`image.take k` — which is `re.Pattern.match` semantics, not full-match. -/
theorem is_valid_base_image_iff_prefix_match (image : List Char)
    (allowlist : BaseImageAllowlist) :
    is_valid_base_image image (some allowlist) = true ↔
      (image = [] ∨ image ∈ allowlist.allowed_images ∨
        ∃ p ∈ allowlist.allowed_image_patterns,
          ∃ k : Nat, p.fullmatch (image.take k) = true) := by
  by_cases h0 : image = []
  · simp [h0, is_valid_base_image]
  · have hne : image.isEmpty = false := by
      cases image with
      | nil => exact absurd rfl h0
      | cons c t => rfl
    by_cases hm : image ∈ allowlist.allowed_images
    · simp [is_valid_base_image, _is_allowlisted_image, hne, hm, h0]
    · simp [is_valid_base_image, _is_allowlisted_image, hne, hm, h0,
        List.any_eq_true, Regex.prefixmatch_iff_exists_take]

/-! ## YAML / parsed-Python values

`yaml.safe_load_all` produces Python values: scalars, lists and dicts.  Maps
and arrays are flattened into the constructors below so that decidable
equality is derivable.  A "mapping-shaped document" is `mnil`/`mcons`. -/

/-- Parsed YAML / Python value. `mnil`/`mcons` chains are dicts (string keys,
as produced for the compiler documents handled here); `anil`/`acons` chains
are lists. -/
inductive Yaml where
  | null : Yaml
  | bool (b : Bool) : Yaml
  | num (n : Int) : Yaml
  | str (s : List Char) : Yaml
  | anil : Yaml
  | acons (hd tl : Yaml) : Yaml
  | mnil : Yaml
  | mcons (key : List Char) (val tl : Yaml) : Yaml
deriving DecidableEq

/-- `isinstance(v, dict)`. -/
def Yaml.isMap : Yaml → Bool
  | .mnil => true
  | .mcons _ _ _ => true
  | _ => false

/-- `d.get(key)` on a dict, with `None` for a missing key; `null` on
non-dicts (callers guard with `isMap` where the code does). -/
def Yaml.lookup : Yaml → List Char → Yaml
  | .mcons k v t, key => if k = key then v else t.lookup key
  | _, _ => .null

/-- `key in d` for a dict. -/
def Yaml.hasKey : Yaml → List Char → Bool
  | .mcons k _ t, key => k = key || t.hasKey key
  | _, _ => false

/-- Python truthiness: `None`, `False`, `0`, `""` and empty containers are
falsy, everything else truthy. -/
def Yaml.truthy : Yaml → Bool
  | .null => false
  | .bool b => b
  | .num n => n ≠ 0
  | .str s => s ≠ []
  | .anil => false
  | .acons _ _ => true
  | .mnil => false
  | .mcons _ _ _ => true

/-- `x or {}`: keep a truthy value, replace a falsy one by the empty dict. -/
def Yaml.orEmptyDict (v : Yaml) : Yaml :=
  if v.truthy then v else .mnil

/-! ## Compiled-YAML classification (`scripts/lib/kfp_compilation.py`)

```python
def _is_platform_spec(doc):
    return isinstance(doc.get("platforms"), dict)

def _is_pipeline_spec(doc):
    return "deploymentSpec" in doc or "root" in doc

def _load_compiled_yaml(path):
    docs = [d for d in yaml.safe_load_all(f) if isinstance(d, dict)]
    if not docs: raise ValueError(...)
    if len(docs) == 1: return docs[0]
    pipeline_spec = next((d for d in docs if _is_pipeline_spec(d) and not _is_platform_spec(d)), None)
    platform_spec = next((d for d in docs if _is_platform_spec(d)), None)
    if pipeline_spec is not None and platform_spec is not None and pipeline_spec is not platform_spec:
        return {"pipeline_spec": pipeline_spec, "platform_spec": platform_spec}
    raise ValueError(...)
```

The `pipeline_spec is not platform_spec` identity test is modelled by
structural inequality: documents of one stream are distinct objects, and the
two `next(...)` predicates are disjoint, so the two renderings agree
(`loadCompiledYaml_pair_ne` below). -/

/-- `_is_platform_spec`. -/
def _is_platform_spec (doc : Yaml) : Bool :=
  (doc.lookup "platforms".toList).isMap

/-- `_is_pipeline_spec`. -/
def _is_pipeline_spec (doc : Yaml) : Bool :=
  doc.hasKey "deploymentSpec".toList || doc.hasKey "root".toList

/-- Result shape of `_load_compiled_yaml`: the single document, or the
`{"pipeline_spec": ..., "platform_spec": ...}` wrapper. -/
inductive LoadResult where
  | single (doc : Yaml) : LoadResult
  | pair (pipeline_spec platform_spec : Yaml) : LoadResult
deriving DecidableEq

/-- `_load_compiled_yaml`, from the stream of documents read back
(`yaml.safe_load_all`). -/
def _load_compiled_yaml (stream : List Yaml) : Except (List Char) LoadResult :=
  let docs := stream.filter Yaml.isMap
  match docs with
  | [] => .error "no dict document".toList
  | [d] => .ok (.single d)
  | _ =>
      match docs.find? (fun d => _is_pipeline_spec d && !_is_platform_spec d),
            docs.find? _is_platform_spec with
      | some p, some q =>
          if p ≠ q then .ok (.pair p q)
          else .error "could not classify".toList
      | _, _ => .error "could not classify".toList

/-- The two classification predicates are disjoint: no document can be picked
both as the pipeline spec and as the platform spec. -/
theorem pipeline_platform_pred_disjoint (d : Yaml) :
    ¬ ((_is_pipeline_spec d && !_is_platform_spec d) = true ∧ _is_platform_spec d = true) := by
  rintro ⟨h₁, h₂⟩
  simp [h₂] at h₁

/-- C2: on a stream whose mapping-shaped documents are exactly two,
`_load_compiled_yaml` classifies by content alone: it succeeds exactly when one
document has `deploymentSpec`/`root` (and no top-level `platforms` mapping) and
the other has a `platforms` mapping, returning that pair, and the result is the
same for both orders of the two documents; in every other configuration it
returns an error. -/
theorem loadCompiledYaml_two_docs_content_based
    (stream₁ stream₂ : List Yaml) (a b : Yaml)
    (h₁ : stream₁.filter Yaml.isMap = [a, b])
    (h₂ : stream₂.filter Yaml.isMap = [b, a]) :
    _load_compiled_yaml stream₁ = _load_compiled_yaml stream₂ ∧
    _load_compiled_yaml stream₁ =
      (if _is_pipeline_spec a && !_is_platform_spec a && _is_platform_spec b then
        .ok (.pair a b)
      else if _is_pipeline_spec b && !_is_platform_spec b && _is_platform_spec a then
        .ok (.pair b a)
      else .error "could not classify".toList) := by
  unfold _load_compiled_yaml
  rw [h₁, h₂]
  by_cases hab : a = b
  · subst hab
    cases hpa : _is_pipeline_spec a <;> cases hla : _is_platform_spec a <;>
      simp [List.find?, hpa, hla]
  · have hba : b ≠ a := fun h => hab h.symm
    cases hpa : _is_pipeline_spec a <;> cases hla : _is_platform_spec a <;>
      cases hpb : _is_pipeline_spec b <;> cases hlb : _is_platform_spec b <;>
      simp [List.find?, hpa, hla, hpb, hlb, hab, hba]

/-- C2 (witness): instantiation of `loadCompiledYaml_two_docs_content_based`
at a concrete two-document stream — a pipeline doc `{"deploymentSpec": {}}`
and a platform doc `{"platforms": {}}` — whose hypotheses hold by computation. -/
theorem loadCompiledYaml_two_docs_content_based_witness :
    _load_compiled_yaml [Yaml.mcons "deploymentSpec".toList .mnil .mnil,
        Yaml.mcons "platforms".toList .mnil .mnil] =
      _load_compiled_yaml [Yaml.mcons "platforms".toList .mnil .mnil,
        Yaml.mcons "deploymentSpec".toList .mnil .mnil] ∧
    _load_compiled_yaml [Yaml.mcons "deploymentSpec".toList .mnil .mnil,
        Yaml.mcons "platforms".toList .mnil .mnil] =
      (if _is_pipeline_spec (Yaml.mcons "deploymentSpec".toList .mnil .mnil) &&
          !_is_platform_spec (Yaml.mcons "deploymentSpec".toList .mnil .mnil) &&
          _is_platform_spec (Yaml.mcons "platforms".toList .mnil .mnil) then
        .ok (.pair (Yaml.mcons "deploymentSpec".toList .mnil .mnil)
          (Yaml.mcons "platforms".toList .mnil .mnil))
      else if _is_pipeline_spec (Yaml.mcons "platforms".toList .mnil .mnil) &&
          !_is_platform_spec (Yaml.mcons "platforms".toList .mnil .mnil) &&
          _is_platform_spec (Yaml.mcons "deploymentSpec".toList .mnil .mnil) then
        .ok (.pair (Yaml.mcons "platforms".toList .mnil .mnil)
          (Yaml.mcons "deploymentSpec".toList .mnil .mnil))
      else .error "could not classify".toList) :=
  loadCompiledYaml_two_docs_content_based _ _ _ _ (by decide) (by decide)

/-- C8 (counterexample): the claim "any document count other than one or two is
an error" is false on the code: a stream of *three* mapping-shaped documents —
`{"deploymentSpec": {}}`, `{"platforms": {}}` and `{"x": null}` — is silently
reduced to the `{pipeline_spec, platform_spec}` pair of the first two instead
of raising. -/
theorem c8_three_docs_counterexample :
    (([Yaml.mcons "deploymentSpec".toList .mnil .mnil,
        Yaml.mcons "platforms".toList .mnil .mnil,
        Yaml.mcons "x".toList .null .mnil].filter Yaml.isMap).length = 3) ∧
    _load_compiled_yaml
        [Yaml.mcons "deploymentSpec".toList .mnil .mnil,
          Yaml.mcons "platforms".toList .mnil .mnil,
          Yaml.mcons "x".toList .null .mnil] =
      .ok (.pair (Yaml.mcons "deploymentSpec".toList .mnil .mnil)
        (Yaml.mcons "platforms".toList .mnil .mnil)) :=
  ⟨rfl, rfl⟩

/-- C8 (amended): `_load_compiled_yaml` errors on zero mapping-shaped
documents and returns a single mapping document as-is; with *two or more*
mapping documents it classifies by content — the pair of the first document
with `deploymentSpec`/`root` and no `platforms` mapping and the first document
with a `platforms` mapping (necessarily distinct documents), succeeding exactly
when both roles are filled and erroring otherwise — so a count of three or more
is not rejected by count alone. -/
theorem loadCompiledYaml_doc_count_behaviour (stream : List Yaml) :
    (stream.filter Yaml.isMap = [] →
      _load_compiled_yaml stream = .error "no dict document".toList) ∧
    (∀ d, stream.filter Yaml.isMap = [d] → _load_compiled_yaml stream = .ok (.single d)) ∧
    (2 ≤ (stream.filter Yaml.isMap).length →
      _load_compiled_yaml stream =
        (match (stream.filter Yaml.isMap).find?
              (fun d => _is_pipeline_spec d && !_is_platform_spec d),
            (stream.filter Yaml.isMap).find? _is_platform_spec with
        | some p, some q => .ok (.pair p q)
        | _, _ => .error "could not classify".toList)) ∧
    (2 ≤ (stream.filter Yaml.isMap).length →
      ((∃ r, _load_compiled_yaml stream = .ok r) ↔
        (∃ d ∈ stream.filter Yaml.isMap, (_is_pipeline_spec d && !_is_platform_spec d) = true) ∧
        (∃ d ∈ stream.filter Yaml.isMap, _is_platform_spec d = true))) := by
  have hcons : ∀ (d₁ d₂ : Yaml) (rest : List Yaml),
      stream.filter Yaml.isMap = d₁ :: d₂ :: rest →
      _load_compiled_yaml stream =
        (match (d₁ :: d₂ :: rest).find?
              (fun d => _is_pipeline_spec d && !_is_platform_spec d),
            (d₁ :: d₂ :: rest).find? _is_platform_spec with
        | some p, some q =>
            if p ≠ q then .ok (.pair p q) else .error "could not classify".toList
        | _, _ => .error "could not classify".toList) := by
    intro d₁ d₂ rest hd
    unfold _load_compiled_yaml
    rw [hd]
  have hdisj : ∀ (l : List Yaml) (pf qf : Yaml),
      l.find? (fun d => _is_pipeline_spec d && !_is_platform_spec d) = some pf →
      l.find? _is_platform_spec = some qf → pf ≠ qf := by
    intro l pf qf hfp hfq he
    have hp : (_is_pipeline_spec pf && !_is_platform_spec pf) = true := by
      simpa using List.find?_some hfp
    have hq : _is_platform_spec qf = true := by
      simpa using List.find?_some hfq
    exact pipeline_platform_pred_disjoint pf ⟨hp, he ▸ hq⟩
  refine ⟨?_, ?_, ?_, ?_⟩
  · intro h
    simp [_load_compiled_yaml, h]
  · intro d h
    simp [_load_compiled_yaml, h]
  · intro hlen
    rcases hd : stream.filter Yaml.isMap with _ | ⟨d₁, _ | ⟨d₂, rest⟩⟩
    · rw [hd] at hlen; simp at hlen
    · rw [hd] at hlen; simp at hlen
    · rw [hcons d₁ d₂ rest hd]
      rcases hfp : (d₁ :: d₂ :: rest).find?
          (fun d => _is_pipeline_spec d && !_is_platform_spec d) with _ | pf <;>
        rcases hfq : (d₁ :: d₂ :: rest).find? _is_platform_spec with _ | qf <;>
        simp only [hfp, hfq]
      exact if_pos (hdisj _ _ _ hfp hfq)
  · intro hlen
    rcases hd : stream.filter Yaml.isMap with _ | ⟨d₁, _ | ⟨d₂, rest⟩⟩
    · rw [hd] at hlen; simp at hlen
    · rw [hd] at hlen; simp at hlen
    · rw [hcons d₁ d₂ rest hd]
      constructor
      · rintro ⟨r, hr⟩
        rcases hfp : (d₁ :: d₂ :: rest).find?
            (fun d => _is_pipeline_spec d && !_is_platform_spec d) with _ | pf <;>
          rcases hfq : (d₁ :: d₂ :: rest).find? _is_platform_spec with _ | qf <;>
          rw [hfp, hfq] at hr
        · simp at hr
        · simp at hr
        · simp at hr
        · refine ⟨⟨pf, List.mem_of_find?_eq_some hfp, ?_⟩,
            ⟨qf, List.mem_of_find?_eq_some hfq, ?_⟩⟩
          · simpa using List.find?_some hfp
          · simpa using List.find?_some hfq
      · rintro ⟨⟨dp, hdp, hdp2⟩, ⟨dq, hdq, hdq2⟩⟩
        have h1 : (((d₁ :: d₂ :: rest).find?
            (fun d => _is_pipeline_spec d && !_is_platform_spec d)).isSome) = true := by
          rw [List.find?_isSome]
          exact ⟨dp, hdp, hdp2⟩
        have h2 : (((d₁ :: d₂ :: rest).find? _is_platform_spec).isSome) = true := by
          rw [List.find?_isSome]
          exact ⟨dq, hdq, hdq2⟩
        rcases hfp : (d₁ :: d₂ :: rest).find?
            (fun d => _is_pipeline_spec d && !_is_platform_spec d) with _ | pf
        · rw [hfp] at h1; simp at h1
        rcases hfq : (d₁ :: d₂ :: rest).find? _is_platform_spec with _ | qf
        · rw [hfq] at h2; simp at h2
        refine ⟨.pair pf qf, ?_⟩
        exact if_pos (hdisj _ _ _ hfp hfq)

/-- C8 (witness): `loadCompiledYaml_doc_count_behaviour` applied to concrete
streams with zero and with one mapping-shaped document. -/
theorem loadCompiledYaml_doc_count_behaviour_witness :
    _load_compiled_yaml [Yaml.null] = .error "no dict document".toList ∧
    _load_compiled_yaml [Yaml.null, Yaml.mnil] = .ok (.single Yaml.mnil) :=
  ⟨(loadCompiledYaml_doc_count_behaviour [Yaml.null]).1 rfl,
    (loadCompiledYaml_doc_count_behaviour [Yaml.null, Yaml.mnil]).2.1 Yaml.mnil rfl⟩

/-! ## Image extraction from a pipeline spec (`scripts/lib/base_image.py`)

`extract_base_images_from_pipeline_spec` walks a parsed YAML value with
Python's dynamic attribute semantics.  `d.get(k)` on a non-dict raises
`AttributeError`; `k in d` with an unhashable key raises `TypeError`; these
dynamic failures are modelled in `Except PyError`. -/

/-- Python runtime errors reachable in the extractor. -/
inductive PyError where
  | attributeError : PyError
  | typeError : PyError
  | valueError : PyError
deriving DecidableEq

/-- `v.get(k)`: dict lookup (with `None` default); on a non-dict value the
attribute `get` does not exist, so `AttributeError` is raised. -/
def pyGet (v : Yaml) (k : List Char) : Except PyError Yaml :=
  if v.isMap then .ok (v.lookup k) else .error .attributeError

/-- Is the value hashable (usable as `key in dict`)?  Lists and dicts are
unhashable. -/
def Yaml.isHashable : Yaml → Bool
  | .anil | .acons _ _ | .mnil | .mcons _ _ _ => false
  | _ => true

/-- The underlying string of a string value (callers only use it on `.str`). -/
def Yaml.strVal : Yaml → List Char
  | .str s => s
  | _ => []

/-- `key in d` for a dict `d`: unhashable keys raise `TypeError`; hashable
non-string keys are simply absent from the string-keyed documents here. -/
def pyContains (key m : Yaml) : Except PyError Bool :=
  if key.isHashable then
    match key with
    | .str s => .ok (m.hasKey s)
    | _ => .ok false
  else .error .typeError

/-- `set.add`: Python set semantics on the collected images. -/
def setAdd (s : List Yaml) (v : Yaml) : List Yaml :=
  if v ∈ s then s else s ++ [v]

/-- Loop body of `_images_from_executors`: for each executor config (skipping
non-dicts), add `container.image` when `container` is a dict with a truthy
`image`. -/
def imagesFromExecutorsLoop (images : List Yaml) : Yaml → List Yaml
  | .mcons _ config t =>
      if config.isMap then
        let container := Yaml.orEmptyDict (config.lookup "container".toList)
        let images :=
          if container.isMap && (container.lookup "image".toList).truthy then
            setAdd images (container.lookup "image".toList)
          else images
        imagesFromExecutorsLoop images t
      else imagesFromExecutorsLoop images t
  | _ => images

/-- `_images_from_executors` — returns the empty set for a non-dict argument,
otherwise collects `container.image` over the executor map. -/
def _images_from_executors (executors : Yaml) : List Yaml :=
  if executors.isMap then imagesFromExecutorsLoop [] executors else []

/-- Loop over `root.dag.tasks`: add `componentRef.image` for each dict-shaped
task whose `componentRef` is a dict with a truthy `image`. -/
def tasksLoop (images : List Yaml) : Yaml → List Yaml
  | .mcons _ task t =>
      if task.isMap then
        let cref := Yaml.orEmptyDict (task.lookup "componentRef".toList)
        let images :=
          if cref.isMap && (cref.lookup "image".toList).truthy then
            setAdd images (cref.lookup "image".toList)
          else images
        tasksLoop images t
      else tasksLoop images t
  | _ => images

/-- Loop over `components`: for each dict-shaped component config with a
truthy `executorLabel` found in `executors`, fetch
`(executors.get(label) or {}).get("container")` — which raises
`AttributeError` when the executor entry is a truthy non-dict — and add its
truthy `image`. -/
def componentsLoop (executors : Yaml) (images : List Yaml) : Yaml → Except PyError (List Yaml)
  | .mcons _ comp t =>
      if comp.isMap then
        let label := comp.lookup "executorLabel".toList
        if label.truthy then
          match pyContains label executors with
          | .error e => .error e
          | .ok mem =>
              if mem then
                match pyGet (Yaml.orEmptyDict (executors.lookup label.strVal))
                    "container".toList with
                | .error e => .error e
                | .ok containerRaw =>
                    let container := Yaml.orEmptyDict containerRaw
                    let images :=
                      if container.isMap && (container.lookup "image".toList).truthy then
                        setAdd images (container.lookup "image".toList)
                      else images
                    componentsLoop executors images t
              else componentsLoop executors images t
        else componentsLoop executors images t
      else componentsLoop executors images t
  | _ => .ok images

/-- `extract_base_images_from_pipeline_spec`: `ValueError` for non-dict input;
then images from `deploymentSpec.executors`, `root.dag.tasks` and the
`components`-to-executor mapping.  The `deploymentSpec` value is dereferenced
with `.get("executors")` *without* an `isinstance` guard. -/
def extract_base_images_from_pipeline_spec (pipeline_spec : Yaml) :
    Except PyError (List Yaml) :=
  if !pipeline_spec.isMap then .error .valueError
  else
    let deployment_spec := Yaml.orEmptyDict (pipeline_spec.lookup "deploymentSpec".toList)
    match pyGet deployment_spec "executors".toList with
    | .error e => .error e
    | .ok executorsRaw =>
        let executors := Yaml.orEmptyDict executorsRaw
        let images := _images_from_executors executors
        let root := Yaml.orEmptyDict (pipeline_spec.lookup "root".toList)
        let dag := Yaml.orEmptyDict ((if root.isMap then root else .mnil).lookup "dag".toList)
        let tasks := Yaml.orEmptyDict ((if dag.isMap then dag else .mnil).lookup "tasks".toList)
        let images := if tasks.isMap then tasksLoop images tasks else images
        let components := Yaml.orEmptyDict (pipeline_spec.lookup "components".toList)
        if components.isMap && executors.isMap then
          componentsLoop executors images components
        else
          .ok images

/-- Truthy values of a dict are themselves dicts (entrywise, along the
chain).  Used to rule out the `AttributeError` on
`(executors.get(label) or {}).get("container")`. -/
def mapValsTruthyAreMaps : Yaml → Bool
  | .mcons _ v t => (!v.truthy || v.isMap) && mapValsTruthyAreMaps t
  | _ => true

/-- Every dict-shaped component config has a hashable (or falsy)
`executorLabel`.  Used to rule out the `TypeError` on
`executor_label in executors`. -/
def compLabelsHashable : Yaml → Bool
  | .mcons _ c t =>
      (!c.isMap || !(c.lookup "executorLabel".toList).truthy ||
        (c.lookup "executorLabel".toList).isHashable) &&
      compLabelsHashable t
  | _ => true

/-- Looked-up values inherit `mapValsTruthyAreMaps`. -/
theorem lookup_isMap_of_mapValsTruthyAreMaps (m : Yaml) (k : List Char)
    (h : mapValsTruthyAreMaps m = true) (ht : (m.lookup k).truthy = true) :
    (m.lookup k).isMap = true := by
  induction m with
  | mcons key v t ihv iht =>
      rw [mapValsTruthyAreMaps, Bool.and_eq_true] at h
      rw [Yaml.lookup] at ht ⊢
      by_cases hk : key = k
      · rw [if_pos hk] at ht ⊢
        have := h.1
        simp only [ht, Bool.not_true, Bool.false_or] at this
        exact this
      · rw [if_neg hk] at ht ⊢
        exact iht h.2 ht
  | null => simp [Yaml.lookup, Yaml.truthy] at ht
  | bool b => simp [Yaml.lookup, Yaml.truthy] at ht
  | num n => simp [Yaml.lookup, Yaml.truthy] at ht
  | str s => simp [Yaml.lookup, Yaml.truthy] at ht
  | anil => simp [Yaml.lookup, Yaml.truthy] at ht
  | acons hd tl ih₁ ih₂ => simp [Yaml.lookup, Yaml.truthy] at ht
  | mnil => simp [Yaml.lookup, Yaml.truthy] at ht

/-- `key in d` cannot raise when the key is hashable. -/
theorem pyContains_ok_of_hashable (key m : Yaml) (h : key.isHashable = true) :
    ∃ s, pyContains key m = .ok s := by
  cases key with
  | str s => exact ⟨m.hasKey s, rfl⟩
  | null => exact ⟨false, rfl⟩
  | bool b => exact ⟨false, rfl⟩
  | num n => exact ⟨false, rfl⟩
  | anil => simp [Yaml.isHashable] at h
  | acons a b => simp [Yaml.isHashable] at h
  | mnil => simp [Yaml.isHashable] at h
  | mcons a b c => simp [Yaml.isHashable] at h

/-- `pyGet` succeeds on dicts. -/
theorem pyGet_ok_of_isMap (v : Yaml) (k : List Char) (h : v.isMap = true) :
    pyGet v k = .ok (v.lookup k) := by
  simp [pyGet, h]

/-- `componentsLoop` never raises when component labels are hashable and the
executor map's truthy values are dicts. -/
theorem componentsLoop_ok (executors : Yaml) (hex : mapValsTruthyAreMaps executors = true) :
    ∀ (comps : Yaml) (images : List Yaml), compLabelsHashable comps = true →
      ∃ r, componentsLoop executors images comps = .ok r := by
  intro comps
  induction comps with
  | mcons key c t ihc iht =>
      intro images hok
      rw [compLabelsHashable, Bool.and_eq_true] at hok
      rw [componentsLoop]
      by_cases hc : c.isMap = true
      · rw [if_pos hc]
        by_cases hl : (c.lookup "executorLabel".toList).truthy = true
        · rw [if_pos hl]
          have hhash : (c.lookup "executorLabel".toList).isHashable = true := by
            have := hok.1
            simp only [hc, hl, Bool.not_true, Bool.false_or] at this
            exact this
          obtain ⟨s, hs⟩ := pyContains_ok_of_hashable (c.lookup "executorLabel".toList)
            executors hhash
          cases s with
          | true =>
              have hmap : (Yaml.orEmptyDict
                  (executors.lookup (c.lookup "executorLabel".toList).strVal)).isMap = true := by
                rw [Yaml.orEmptyDict]
                by_cases hto : (executors.lookup
                    (c.lookup "executorLabel".toList).strVal).truthy = true
                · rw [if_pos hto]
                  exact lookup_isMap_of_mapValsTruthyAreMaps executors _ hex hto
                · rw [if_neg hto]
                  rfl
              simp only [hs, pyGet_ok_of_isMap _ _ hmap, if_true]
              exact iht _ hok.2
          | false =>
              simp only [hs, Bool.false_eq_true, if_false]
              exact iht images hok.2
        · rw [if_neg hl]
          exact iht images hok.2
      · rw [if_neg hc]
        exact iht images hok.2
  | null => intro images _; exact ⟨images, rfl⟩
  | bool b => intro images _; exact ⟨images, rfl⟩
  | num n => intro images _; exact ⟨images, rfl⟩
  | str s => intro images _; exact ⟨images, rfl⟩
  | anil => intro images _; exact ⟨images, rfl⟩
  | acons hd tl ih₁ ih₂ => intro images _; exact ⟨images, rfl⟩
  | mnil => intro images _; exact ⟨images, rfl⟩

/-- C10 (counterexample): the claim "for every dict input the extractor
returns a set of images without raising, skipping nested entries of unexpected
shape" is false on the code: the dict `{"deploymentSpec": "oops"}` makes
`extract_base_images_from_pipeline_spec` call `.get("executors")` on the string
`"oops"`, raising `AttributeError` instead of skipping it. -/
theorem extract_base_images_nonmapping_deployment_counterexample :
    (Yaml.mcons "deploymentSpec".toList (Yaml.str "oops".toList) .mnil).isMap = true ∧
    extract_base_images_from_pipeline_spec
        (Yaml.mcons "deploymentSpec".toList (Yaml.str "oops".toList) .mnil) =
      .error .attributeError :=
  ⟨rfl, rfl⟩

/-- C10 (amended): for every dict input whose `deploymentSpec` value, when
truthy, is a mapping, whose executor entries, when truthy, are mappings, and
whose dict-shaped component configs carry hashable (or falsy)
`executorLabel` values, `extract_base_images_from_pipeline_spec` returns a set
of images without raising; outside those conditions the code raises
(`AttributeError` on a truthy non-mapping `deploymentSpec` or executor entry,
`TypeError` on an unhashable `executorLabel`) rather than skipping. -/
theorem extract_base_images_total_when_shapes_ok (spec : Yaml)
    (hmap : spec.isMap = true)
    (h1 : (spec.lookup "deploymentSpec".toList).truthy = true →
      (spec.lookup "deploymentSpec".toList).isMap = true)
    (h2 : mapValsTruthyAreMaps (Yaml.orEmptyDict
      ((Yaml.orEmptyDict (spec.lookup "deploymentSpec".toList)).lookup
        "executors".toList)) = true)
    (h3 : compLabelsHashable (Yaml.orEmptyDict (spec.lookup "components".toList)) = true) :
    ∃ images, extract_base_images_from_pipeline_spec spec = .ok images := by
  have hds : (Yaml.orEmptyDict (spec.lookup "deploymentSpec".toList)).isMap = true := by
    rw [Yaml.orEmptyDict]
    by_cases ht : (spec.lookup "deploymentSpec".toList).truthy = true
    · rw [if_pos ht]
      exact h1 ht
    · rw [if_neg ht]
      rfl
  rw [extract_base_images_from_pipeline_spec]
  simp only [hmap, Bool.not_true, Bool.false_eq_true, if_false,
    pyGet_ok_of_isMap _ _ hds]
  by_cases hcond : ((Yaml.orEmptyDict (spec.lookup "components".toList)).isMap &&
      (Yaml.orEmptyDict ((Yaml.orEmptyDict
        (spec.lookup "deploymentSpec".toList)).lookup "executors".toList)).isMap) = true
  · rw [if_pos hcond]
    exact componentsLoop_ok _ h2 _ _ h3
  · rw [if_neg hcond]
    exact ⟨_, rfl⟩

/-- C10 (witness): `extract_base_images_total_when_shapes_ok` applied to a
concrete well-shaped pipeline spec with one executor image. -/
theorem extract_base_images_total_when_shapes_ok_witness :
    ∃ images, extract_base_images_from_pipeline_spec
      (Yaml.mcons "deploymentSpec".toList
        (Yaml.mcons "executors".toList
          (Yaml.mcons "e1".toList
            (Yaml.mcons "container".toList
              (Yaml.mcons "image".toList (Yaml.str "img:1".toList) .mnil) .mnil) .mnil)
          .mnil) .mnil) = .ok images :=
  extract_base_images_total_when_shapes_ok _ rfl (fun _ => rfl) (by decide) (by decide)

/-! ## Scratch-filename derivation (`scripts/lib/base_image.py`)

```python
def _sanitize_module_name(asset_file, asset_type):
    name = re.sub(r"\W+", "_", f"check_base_image_tags_{asset_type}_{asset_file}")
    if not name.isidentifier():
        name = f"m_{name}"
    return name
```
and, in `_compile_asset_images`, per-function outputs are written to
`f"{module_name}_{func_name}.yaml"` inside the shared scratch directory. -/

/-- `\w` (ASCII): letter, digit or underscore. -/
def isWordChar (c : Char) : Bool :=
  c.isAlphanum || c = '_'

/-- `re.sub(r"\W+", "_", s)`: each maximal run of non-word characters is
replaced by a single underscore.  The flag records whether the previous
character belonged to a (already replaced) non-word run. -/
def subNonWordRunsAux (prevNonWord : Bool) : List Char → List Char
  | [] => []
  | c :: t =>
      if isWordChar c then c :: subNonWordRunsAux false t
      else if prevNonWord then subNonWordRunsAux true t
      else '_' :: subNonWordRunsAux true t

/-- `re.sub(r"\W+", "_", s)`. -/
def subNonWordRuns (s : List Char) : List Char :=
  subNonWordRunsAux false s

/-- `str.isidentifier` (ASCII model): nonempty, first char letter or
underscore, rest letters, digits or underscores. -/
def isIdentifier : List Char → Bool
  | [] => false
  | c :: t => (c.isAlpha || c = '_') && t.all (fun d => d.isAlphanum || d = '_')

/-- `_sanitize_module_name`. -/
def _sanitize_module_name (asset_file asset_type : List Char) : List Char :=
  let name := subNonWordRuns
    ("check_base_image_tags_".toList ++ asset_type ++ ['_'] ++ asset_file)
  if isIdentifier name then name else "m_".toList ++ name

/-- Basename of the per-function compiler output written by
`_compile_asset_images`: `f"{module_name}_{func_name}.yaml"`. -/
def outputFilename (asset_file asset_type func_name : List Char) : List Char :=
  _sanitize_module_name asset_file asset_type ++ ['_'] ++ func_name ++ ".yaml".toList

/-- C9 (counterexample): the claim "for any two distinct (asset file, asset
type, function name) triples, the derived output filenames differ" is false:
the distinct candidate files `a/b/component.py` and `a_b/component.py`
(same type and function name) sanitize to the same module name — `re.sub`
collapses `/` and `.` to `_` — so both functions get the same output
filename. -/
theorem sanitize_collision_counterexample :
    "a/b/component.py".toList ≠ "a_b/component.py".toList ∧
    outputFilename "a/b/component.py".toList "component".toList "f".toList =
      outputFilename "a_b/component.py".toList "component".toList "f".toList := by
  decide

/-- C9 (amended): derived output filenames are collision-free only up to
sanitization: within one asset file (same file and type) distinct function
names always give distinct filenames, and for one function name distinct
*sanitized* module names always give distinct filenames — but distinct paths
whose sanitizations coincide (such as `a/b/component.py` vs
`a_b/component.py`) collide. -/
theorem outputFilename_injective_up_to_sanitization
    (f₁ t₁ f₂ t₂ n₁ n₂ : List Char) :
    (f₁ = f₂ → t₁ = t₂ → n₁ ≠ n₂ →
      outputFilename f₁ t₁ n₁ ≠ outputFilename f₂ t₂ n₂) ∧
    (n₁ = n₂ → _sanitize_module_name f₁ t₁ ≠ _sanitize_module_name f₂ t₂ →
      outputFilename f₁ t₁ n₁ ≠ outputFilename f₂ t₂ n₂) := by
  constructor
  · intro hf ht hn h
    subst hf; subst ht
    unfold outputFilename at h
    have h₁ := List.append_cancel_right h
    have h₂ := List.append_cancel_left h₁
    exact hn h₂
  · intro hn hm h
    subst hn
    unfold outputFilename at h
    have h₁ := List.append_cancel_right h
    have h₂ := List.append_cancel_right h₁
    exact hm (List.append_cancel_right h₂)

/-- C9 (witness): `outputFilename_injective_up_to_sanitization` applied to
two functions of the same concrete asset file with distinct names, and to two
concrete asset files with distinct sanitized module names sharing one
function name. -/
theorem outputFilename_injective_up_to_sanitization_witness :
    outputFilename "a/component.py".toList "component".toList "f".toList ≠
      outputFilename "a/component.py".toList "component".toList "g".toList ∧
    outputFilename "a/component.py".toList "component".toList "f".toList ≠
      outputFilename "b/component.py".toList "component".toList "f".toList :=
  ⟨(outputFilename_injective_up_to_sanitization
      "a/component.py".toList "component".toList "a/component.py".toList
      "component".toList "f".toList "g".toList).1 rfl rfl (by decide),
    (outputFilename_injective_up_to_sanitization
      "a/component.py".toList "component".toList "b/component.py".toList
      "component".toList "f".toList "f".toList).2 rfl (by decide)⟩

/-! ## OCI tag validation (`scripts/lib/oci.py`)

```python
_TAG_PATTERN = re.compile(r"[\w](?:[\w.-]{0,126}[\w])?", re.ASCII)

def validate_tag(tag):
    if not _TAG_PATTERN.fullmatch(tag):
        raise ValueError(f"Invalid container tag: {tag!r}")
```
-/

/-- `[\w.-]` (ASCII). -/
def isTagInnerChar (c : Char) : Bool :=
  isWordChar c || c = '.' || c = '-'

/-- `r{0,n}`: at most `n` repetitions of `r`. -/
def repUpTo : Nat → Regex → Regex
  | 0, _ => .eps
  | n + 1, r => .alt .eps (.cat r (repUpTo n r))

/-- `_TAG_PATTERN`: `[\w](?:[\w.-]{0,126}[\w])?`. -/
def _TAG_PATTERN : Regex :=
  .cat (.cls isWordChar)
    (.alt .eps (.cat (repUpTo 126 (.cls isTagInnerChar)) (.cls isWordChar)))

/-- `validate_tag` passes exactly when the tag full-matches `_TAG_PATTERN`. -/
def tagValid (tag : List Char) : Bool :=
  _TAG_PATTERN.fullmatch tag

/-- Every character class of the regex is contained in `q`. -/
def Regex.allChars (q : Char → Bool) : Regex → Prop
  | .emp => True
  | .eps => True
  | .cls p => ∀ c, p c = true → q c = true
  | .alt r s => r.allChars q ∧ s.allChars q
  | .cat r s => r.allChars q ∧ s.allChars q
  | .star r => r.allChars q

/-- `emp` matches nothing. -/
theorem fullmatch_emp : ∀ s : List Char, Regex.emp.fullmatch s = false
  | [] => rfl
  | _ :: t => fullmatch_emp t

/-- `fullmatch` distributes over `alt`. -/
theorem fullmatch_alt (s : List Char) : ∀ a b : Regex,
    (Regex.alt a b).fullmatch s = (a.fullmatch s || b.fullmatch s) := by
  induction s with
  | nil => intro a b; rfl
  | cons c t ih => intro a b; exact ih (a.deriv c) (b.deriv c)

/-- A regex rejecting everything stays rejecting after `cat` on the left. -/
theorem fullmatch_cat_left_reject (s : List Char) : ∀ a b : Regex,
    (∀ u, a.fullmatch u = false) → (Regex.cat a b).fullmatch s = false := by
  induction s with
  | nil =>
      intro a b h
      have h0 : a.nullable = false := h []
      simp [Regex.fullmatch, Regex.nullable, h0]
  | cons c t ih =>
      intro a b h
      have h0 : a.nullable = false := h []
      show ((Regex.cat a b).deriv c).fullmatch t = false
      rw [Regex.deriv, h0]
      simp only [Bool.false_eq_true, if_false]
      exact ih (a.deriv c) b (fun u => h (c :: u))

/-- If `q` misses `c` and `r` draws all characters from `q`, the derivative of
`r` by `c` rejects everything. -/
theorem deriv_rejects_of_allChars (r : Regex) (q : Char → Bool) (c : Char)
    (hall : r.allChars q) (hc : q c = false) :
    ∀ t, (r.deriv c).fullmatch t = false := by
  induction r with
  | emp => intro t; exact fullmatch_emp t
  | eps => intro t; exact fullmatch_emp t
  | cls p =>
      intro t
      have hp : p c = false := by
        cases hpc : p c with
        | false => rfl
        | true => exact absurd (hall c hpc) (by simp [hc])
      rw [Regex.deriv, hp]
      simp only [Bool.false_eq_true, if_false]
      exact fullmatch_emp t
  | alt a b iha ihb =>
      intro t
      rw [Regex.deriv, fullmatch_alt]
      rw [iha hall.1 t, ihb hall.2 t]
      rfl
  | cat a b iha ihb =>
      intro t
      rw [Regex.deriv]
      cases hn : a.nullable with
      | true =>
          simp only [if_true]
          rw [fullmatch_alt]
          rw [fullmatch_cat_left_reject t (a.deriv c) b (iha hall.1), ihb hall.2 t]
          rfl
      | false =>
          simp only [Bool.false_eq_true, if_false]
          exact fullmatch_cat_left_reject t (a.deriv c) b (iha hall.1)
  | star a iha =>
      intro t
      rw [Regex.deriv]
      exact fullmatch_cat_left_reject t (a.deriv c) (.star a) (iha hall)

/-- `allChars` is stable under derivatives. -/
theorem allChars_deriv (q : Char → Bool) (c : Char) :
    ∀ r : Regex, r.allChars q → (r.deriv c).allChars q := by
  intro r
  induction r with
  | emp => intro _; trivial
  | eps => intro _; trivial
  | cls p =>
      intro h
      rw [Regex.deriv]
      cases p c <;> simp [Regex.allChars]
  | alt a b iha ihb =>
      intro h
      exact ⟨iha h.1, ihb h.2⟩
  | cat a b iha ihb =>
      intro h
      rw [Regex.deriv]
      cases a.nullable
      · exact ⟨iha h.1, h.2⟩
      · exact ⟨⟨iha h.1, h.2⟩, ihb h.2⟩
  | star a iha =>
      intro h
      exact ⟨iha h, h⟩

/-- A full match of a regex whose classes all lie in `q` only contains
characters satisfying `q`. -/
theorem chars_of_fullmatch (q : Char → Bool) (s : List Char) : ∀ r : Regex,
    r.allChars q → r.fullmatch s = true → ∀ c ∈ s, q c = true := by
  induction s with
  | nil => intro r _ _ c hc; exact absurd hc (List.not_mem_nil c)
  | cons d t ih =>
      intro r hall hm c hc
      rcases List.mem_cons.mp hc with h | h
      · subst h
        cases hqc : q c with
        | true => rfl
        | false =>
            exact absurd hm (by simp [Regex.fullmatch,
              deriv_rejects_of_allChars r q c hall hqc t])
      · exact ih (r.deriv d) (allChars_deriv q d r hall) hm c h

/-- `repUpTo` inherits `allChars`. -/
theorem allChars_repUpTo (q : Char → Bool) (r : Regex) (h : r.allChars q) :
    ∀ n, (repUpTo n r).allChars q := by
  intro n
  induction n with
  | zero => trivial
  | succ n ihn => exact ⟨trivial, h, ihn⟩

/-- A valid OCI tag consists solely of `[\w.-]` characters; in particular it
is nonempty and contains no colon. -/
theorem tagValid_chars (tag : List Char) (h : tagValid tag = true) :
    tag ≠ [] ∧ ∀ c ∈ tag, isTagInnerChar c = true := by
  constructor
  · intro he
    subst he
    exact absurd h (by decide)
  · have hall : _TAG_PATTERN.allChars isTagInnerChar := by
      refine ⟨?_, trivial, ⟨allChars_repUpTo _ _ ?_ 126, ?_⟩⟩
      · intro c hc
        rw [isTagInnerChar, hc]
        rfl
      · intro c hc
        exact hc
      · intro c hc
        rw [isTagInnerChar, hc]
        rfl
    exact chars_of_fullmatch isTagInnerChar tag _TAG_PATTERN hall h

/-! ## Base-image locations and the structural locator

`scripts/lib/parsing.py` in the provided sources does not contain
`get_base_image_locations` (only its tests in
`scripts/lib/tests/test_parsing.py` and its caller
`override_file_images` reference it); the locator is therefore modelled from
the spec (§4.2).  A location records the literal value and the exact source
span *including the quote characters*, 1-indexed lines / 0-indexed columns,
with `start_col` at the opening quote. -/

/-- `ImageLiteralLocation` (named `bi` with fields `func_name`, `value`,
`start_line`, `start_col`, `end_line`, `end_col` by the tests and the
rewriter). -/
structure BaseImageLocation where
  func_name : List Char
  value : List Char
  start_line : Nat
  start_col : Nat
  end_line : Nat
  end_col : Nat
deriving DecidableEq

/-- Error raised by the locator ("base_image must be a string literal …"),
identifying the offending function. -/
structure LocatorError where
  func_name : List Char
deriving DecidableEq

/-- The value node supplied to the `base_image` keyword of a recognized
decorator: either a plain string-literal constant with its source span, or a
non-literal expression (call, variable reference, f-string, concatenation). -/
inductive BaseImageArg where
  | strLit (value : List Char) (start_line start_col end_line end_col : Nat)
  | callExpr : BaseImageArg
  | nameRef : BaseImageArg
  | fstring : BaseImageArg
  | concatExpr : BaseImageArg
deriving DecidableEq

/-- A decorated definition (component/pipeline) of a source file, with the
`base_image` keyword argument of its decorator call, if supplied. -/
structure DecoratedDef where
  func_name : List Char
  base_image : Option BaseImageArg
deriving DecidableEq

/-- Is the supplied `base_image` argument a non-literal expression? -/
def isNonLiteralArg : Option BaseImageArg → Bool
  | some (.strLit _ _ _ _ _) => false
  | some _ => true
  | none => false

/-- Modelled from the spec: `get_base_image_locations`
(`scripts/lib/parsing.py`, absent from the provided sources).  Per §4.2, the
locator walks the decorated definitions in source order; a definition without
a `base_image` keyword contributes nothing, a plain string-literal constant
contributes one location (span including the quotes, opening quote at
`start_col`), and any non-literal value node is a hard error identifying the
function — no partial extraction. -/
def get_base_image_locations :
    List DecoratedDef → Except LocatorError (List BaseImageLocation)
  | [] => .ok []
  | d :: rest =>
      match d.base_image with
      | none => get_base_image_locations rest
      | some (.strLit v sl sc el ec) =>
          match get_base_image_locations rest with
          | .error e => .error e
          | .ok locs => .ok (⟨d.func_name, v, sl, sc, el, ec⟩ :: locs)
      | some _ => .error ⟨d.func_name⟩

/-! ## The rewriter (`scripts/lib/base_image.py`, `override_file_images`)

```python
def override_file_images(file_path, container_tag, imagePrefix, dry_run=False):
    validate_tag(container_tag)
    base_images = get_base_image_locations(file_path)
    prefix_with_dash = imagePrefix + "-"
    to_replace = [bi for bi in base_images
                  if bi.value.startswith(prefix_with_dash) and bi.value.endswith(":main")]
    if not to_replace:
        return False, None
    lines = file_path.read_text().splitlines(keepends=True)
    for bi in sorted(to_replace, key=lambda x: (x.start_line, x.start_col), reverse=True):
        if bi.start_line != bi.end_line:
            raise ValueError(...)
        new_value = bi.value.rsplit(":", 1)[0] + ":" + container_tag
        line_idx = bi.start_line - 1
        line = lines[line_idx]
        quote_char = line[bi.start_col]
        quote = quote_char * 3 if line[bi.start_col + 1 : bi.start_col + 3] == quote_char * 2 else quote_char
        new_line = line[: bi.start_col] + f"{quote}{new_value}{quote}" + line[bi.end_col :]
        lines[line_idx] = new_line
    new_content = "".join(lines)
    if not dry_run:
        file_path.write_text(new_content)
    return True, new_content
```

The file is modelled by its text; the paired second component of the result
is the file content after the call (the single `write_text` is the last
operation). -/

/-- Errors `override_file_images` can raise: invalid tag (`validate_tag`),
locator failure, a multi-line matching literal, or an out-of-range span
(Python `IndexError` on `lines[...]`/`line[...]`). -/
inductive OverrideError where
  | invalidTag (tag : List Char) : OverrideError
  | locator (e : LocatorError) : OverrideError
  | multiLine : OverrideError
  | indexError : OverrideError
deriving DecidableEq

/-- The line-boundary characters of `str.splitlines`: `\n`, `\r`, `\v`
(`\x0b`), `\f` (`\x0c`), the separators `\x1c`–`\x1e`, NEL (`\x85`), and the
Unicode line/paragraph separators U+2028 / U+2029.  (`read_text`'s
universal-newline translation collapses `\r\n`/`\r` to `\n` but leaves the
others untouched, so `splitlines` can split where the AST line numbering —
which counts `\n` only — does not.) -/
def isLineBoundary (c : Char) : Bool :=
  c = '\n' || c = '\r' || c = '\x0b' || c = '\x0c' || c = '\x1c' ||
    c = '\x1d' || c = '\x1e' || c = '\x85' || c = '\u2028' || c = '\u2029'

/-- `str.splitlines(keepends=True)`: a line ends at each boundary character
(with the pair `\r\n` kept together as a single line end). -/
def splitLinesAux (acc : List Char) : List Char → List (List Char)
  | [] => if acc = [] then [] else [acc.reverse]
  | '\r' :: '\n' :: t => (acc.reverse ++ ['\r', '\n']) :: splitLinesAux [] t
  | c :: t =>
      if isLineBoundary c then (acc.reverse ++ [c]) :: splitLinesAux [] t
      else splitLinesAux (c :: acc) t

/-- `content.splitlines(keepends=True)`. -/
def splitLinesKeepEnds (content : List Char) : List (List Char) :=
  splitLinesAux [] content

/-- `value.rsplit(":", 1)[0]`: the part before the last colon (the whole
string when there is none). -/
def rsplitLastColonPre (s : List Char) : List Char :=
  if s.contains ':' then (((s.reverse).dropWhile (fun c => c ≠ ':')).drop 1).reverse
  else s

/-- Python slice `l[a:b]` (clamping, never raising). -/
def pySlice (l : List Char) (a b : Nat) : List Char :=
  (l.take b).drop a

/-- `new_value = bi.value.rsplit(":", 1)[0] + ":" + container_tag`. -/
def newValueFor (container_tag : List Char) (bi : BaseImageLocation) : List Char :=
  rsplitLastColonPre bi.value ++ ':' :: container_tag

/-- The quote string re-derived from the recorded opening-quote column:
triple the character at `start_col` if the following two characters repeat
it, else the single character. -/
def quoteFor (line : List Char) (bi : BaseImageLocation) : List Char :=
  match line.get? bi.start_col with
  | some quote_char =>
      if pySlice line (bi.start_col + 1) (bi.start_col + 3) = [quote_char, quote_char] then
        [quote_char, quote_char, quote_char]
      else [quote_char]
  | none => []

/-- The replacement text for one matching literal: quote, new value, quote. -/
def replFor (container_tag line : List Char) (bi : BaseImageLocation) : List Char :=
  quoteFor line bi ++ newValueFor container_tag bi ++ quoteFor line bi

/-- The loop of `override_file_images`: apply the (descending-sorted) edits to
the in-memory line buffer, erroring on a multi-line span and on out-of-range
indices. -/
def applyOverrideEdits (container_tag : List Char) :
    List (List Char) → List BaseImageLocation → Except OverrideError (List (List Char))
  | lines, [] => .ok lines
  | lines, bi :: rest =>
      if bi.start_line ≠ bi.end_line then .error .multiLine
      else
        let line_idx := bi.start_line - 1
        match lines.get? line_idx with
        | none => .error .indexError
        | some line =>
            match line.get? bi.start_col with
            | none => .error .indexError
            | some _ =>
                let new_line := line.take bi.start_col ++ replFor container_tag line bi ++
                  line.drop bi.end_col
                applyOverrideEdits container_tag (lines.set line_idx new_line) rest

/-- Sort key `(x.start_line, x.start_col)`. -/
def locKey (bi : BaseImageLocation) : Nat × Nat :=
  (bi.start_line, bi.start_col)

/-- Lexicographic `≥` on keys. -/
def keyGe (a b : Nat × Nat) : Bool :=
  decide (b.1 < a.1) || (decide (a.1 = b.1) && decide (b.2 ≤ a.2))

/-- Stable insertion for descending sort: an element goes before the first
element whose key it is `≥` (so earlier elements win ties, as Python's stable
`sorted(..., reverse=True)` does). -/
def insertDescBy (x : BaseImageLocation) : List BaseImageLocation → List BaseImageLocation
  | [] => [x]
  | y :: ys => if keyGe (locKey x) (locKey y) then x :: y :: ys else y :: insertDescBy x ys

/-- `sorted(to_replace, key=lambda x: (x.start_line, x.start_col), reverse=True)`. -/
def sortDescBy : List BaseImageLocation → List BaseImageLocation
  | [] => []
  | x :: xs => insertDescBy x (sortDescBy xs)

/-- Is a location a rewrite candidate
(`value.startswith(imagePrefix + "-") and value.endswith(":main")`)? -/
def matchesOverride (imagePrefix : List Char) (bi : BaseImageLocation) : Bool :=
  (imagePrefix ++ ['-']).isPrefixOf bi.value && ":main".toList.isSuffixOf bi.value

/-- `override_file_images`.  Takes the file's current text and the locator
result; returns the Python result (`(was_modified, new_content)` or the
raised error) paired with the file content after the call — the single write
is the last operation, and only happens with `dry_run=False`. -/
def override_file_images (content : List Char)
    (locatorResult : Except LocatorError (List BaseImageLocation))
    (container_tag imagePrefix : List Char) (dry_run : Bool) :
    Except OverrideError (Bool × Option (List Char)) × List Char :=
  if !tagValid container_tag then (.error (.invalidTag container_tag), content)
  else
    match locatorResult with
    | .error e => (.error (.locator e), content)
    | .ok base_images =>
        let to_replace := base_images.filter (matchesOverride imagePrefix)
        if to_replace.isEmpty then (.ok (false, none), content)
        else
          let lines := splitLinesKeepEnds content
          match applyOverrideEdits container_tag lines (sortDescBy to_replace) with
          | .error e => (.error e, content)
          | .ok newLines =>
              let new_content := newLines.flatten
              (.ok (true, some new_content), if dry_run then content else new_content)

/-- C3: `override_file_images` validates the new tag before touching any
text — an invalid tag yields exactly the `invalidTag` error with the file
unchanged — and *every* raising outcome (invalid tag, locator failure,
multi-line matching literal, out-of-range span) leaves the file content
byte-for-byte unchanged: all edits are staged in memory and the single write
happens only on the success path. -/
theorem override_validates_tag_first_and_errors_leave_file (content : List Char)
    (locatorResult : Except LocatorError (List BaseImageLocation))
    (container_tag imagePrefix : List Char) (dry_run : Bool) :
    (tagValid container_tag = false →
      override_file_images content locatorResult container_tag imagePrefix dry_run =
        (.error (.invalidTag container_tag), content)) ∧
    (∀ e,
      (override_file_images content locatorResult container_tag imagePrefix dry_run).1 =
          .error e →
      (override_file_images content locatorResult container_tag imagePrefix dry_run).2 =
        content) := by
  constructor
  · intro h
    simp [override_file_images, h]
  · intro e
    cases htv : tagValid container_tag with
    | false =>
        intro _
        simp [override_file_images, htv]
    | true =>
        cases locatorResult with
        | error e0 =>
            intro _
            simp [override_file_images, htv]
        | ok locs =>
            by_cases hemp :
                (locs.filter (matchesOverride imagePrefix)).isEmpty = true
            · intro h
              simp [override_file_images, htv, hemp] at h
            · cases happ : applyOverrideEdits container_tag (splitLinesKeepEnds content)
                  (sortDescBy (locs.filter (matchesOverride imagePrefix))) with
              | error e1 =>
                  intro _
                  simp [override_file_images, htv, hemp, happ]
              | ok newLines =>
                  intro h
                  simp [override_file_images, htv, hemp, happ] at h

/-- C3 (witness): the invalid tag `":bad"` aborts with the `invalidTag`
error and leaves a concrete file byte-for-byte unchanged. -/
theorem override_validates_tag_first_and_errors_leave_file_witness :
    override_file_images "x = \"p-a:main\"\n".toList (.ok []) ":bad".toList "p".toList false =
      (.error (.invalidTag ":bad".toList), "x = \"p-a:main\"\n".toList) ∧
    (override_file_images "x = \"p-a:main\"\n".toList (.ok []) ":bad".toList "p".toList
        false).2 = "x = \"p-a:main\"\n".toList :=
  ⟨(override_validates_tag_first_and_errors_leave_file _ _ _ _ _).1 (by decide),
    (override_validates_tag_first_and_errors_leave_file
      "x = \"p-a:main\"\n".toList (.ok []) ":bad".toList "p".toList false).2
      (.invalidTag ":bad".toList)
      (by rw [(override_validates_tag_first_and_errors_leave_file
          "x = \"p-a:main\"\n".toList (.ok []) ":bad".toList "p".toList false).1 (by decide)])⟩

/-- C7: whenever some recognized decorated definition supplies a `base_image`
keyword whose value is not a plain string-literal constant, the locator
errors, naming the *first* such offending function in walk order (no silent
skipping, no partial extraction), and `override_file_images` — which runs the
locator before any editing — propagates that hard error, leaving the file
unchanged (assuming the tag itself is valid; an invalid tag errors even
earlier). -/
theorem locator_rejects_non_literal_base_image (defs : List DecoratedDef)
    (h : ∃ d ∈ defs, isNonLiteralArg d.base_image = true) :
    ∃ d ∈ defs, isNonLiteralArg d.base_image = true ∧
      get_base_image_locations defs = .error ⟨d.func_name⟩ ∧
      ∀ (content container_tag imagePrefix : List Char) (dry_run : Bool),
        tagValid container_tag = true →
        override_file_images content (get_base_image_locations defs) container_tag
            imagePrefix dry_run =
          (.error (.locator ⟨d.func_name⟩), content) := by
  induction defs with
  | nil => exact absurd h (by simp)
  | cons d rest ih =>
      cases harg : d.base_image with
      | none =>
          have hrest : ∃ x ∈ rest, isNonLiteralArg x.base_image = true := by
            rcases h with ⟨x, hx, hnl⟩
            rcases List.mem_cons.mp hx with he | hm
            · subst he
              rw [harg] at hnl
              exact absurd hnl (by simp [isNonLiteralArg])
            · exact ⟨x, hm, hnl⟩
          obtain ⟨x, hxm, hxnl, hxerr, hxprop⟩ := ih hrest
          refine ⟨x, List.mem_cons_of_mem d hxm, hxnl, ?_, ?_⟩
          · rw [get_base_image_locations, harg]
            exact hxerr
          · intro content tag pfx dry htag
            have : get_base_image_locations (d :: rest) =
                get_base_image_locations rest := by
              rw [get_base_image_locations, harg]
            rw [this]
            exact hxprop content tag pfx dry htag
      | some arg =>
          cases arg with
          | strLit v sl sc el ec =>
              have hrest : ∃ x ∈ rest, isNonLiteralArg x.base_image = true := by
                rcases h with ⟨x, hx, hnl⟩
                rcases List.mem_cons.mp hx with he | hm
                · subst he
                  rw [harg] at hnl
                  exact absurd hnl (by simp [isNonLiteralArg])
                · exact ⟨x, hm, hnl⟩
              obtain ⟨x, hxm, hxnl, hxerr, hxprop⟩ := ih hrest
              refine ⟨x, List.mem_cons_of_mem d hxm, hxnl, ?_, ?_⟩
              · rw [get_base_image_locations, harg, hxerr]
              · intro content tag pfx dry htag
                have hprop : get_base_image_locations (d :: rest) =
                    .error ⟨x.func_name⟩ := by
                  rw [get_base_image_locations, harg, hxerr]
                rw [hprop]
                simp [override_file_images, htag]
          | callExpr =>
              refine ⟨d, List.mem_cons_self d rest, by simp [isNonLiteralArg, harg], ?_, ?_⟩
              · rw [get_base_image_locations, harg]
              · intro content tag pfx dry htag
                have herr : get_base_image_locations (d :: rest) = .error ⟨d.func_name⟩ := by
                  rw [get_base_image_locations, harg]
                rw [herr]
                simp [override_file_images, htag]
          | nameRef =>
              refine ⟨d, List.mem_cons_self d rest, by simp [isNonLiteralArg, harg], ?_, ?_⟩
              · rw [get_base_image_locations, harg]
              · intro content tag pfx dry htag
                have herr : get_base_image_locations (d :: rest) = .error ⟨d.func_name⟩ := by
                  rw [get_base_image_locations, harg]
                rw [herr]
                simp [override_file_images, htag]
          | fstring =>
              refine ⟨d, List.mem_cons_self d rest, by simp [isNonLiteralArg, harg], ?_, ?_⟩
              · rw [get_base_image_locations, harg]
              · intro content tag pfx dry htag
                have herr : get_base_image_locations (d :: rest) = .error ⟨d.func_name⟩ := by
                  rw [get_base_image_locations, harg]
                rw [herr]
                simp [override_file_images, htag]
          | concatExpr =>
              refine ⟨d, List.mem_cons_self d rest, by simp [isNonLiteralArg, harg], ?_, ?_⟩
              · rw [get_base_image_locations, harg]
              · intro content tag pfx dry htag
                have herr : get_base_image_locations (d :: rest) = .error ⟨d.func_name⟩ := by
                  rw [get_base_image_locations, harg]
                rw [herr]
                simp [override_file_images, htag]

/-- C7 (witness): a file whose only decorated definition supplies
`base_image=compute_tag()` (a call) trips the locator, and the rewriter
propagates the error at a concrete invocation. -/
theorem locator_rejects_non_literal_base_image_witness :
    ∃ d ∈ [(⟨"my_component".toList, some .callExpr⟩ : DecoratedDef)],
      isNonLiteralArg d.base_image = true ∧
      get_base_image_locations [(⟨"my_component".toList, some .callExpr⟩ : DecoratedDef)] =
        .error ⟨d.func_name⟩ ∧
      ∀ (content container_tag imagePrefix : List Char) (dry_run : Bool),
        tagValid container_tag = true →
        override_file_images content
            (get_base_image_locations
              [(⟨"my_component".toList, some .callExpr⟩ : DecoratedDef)]) container_tag
            imagePrefix dry_run =
          (.error (.locator ⟨d.func_name⟩), content) :=
  locator_rejects_non_literal_base_image _ ⟨⟨"my_component".toList, some .callExpr⟩,
    List.mem_singleton.mpr rfl, by decide⟩

/-! ## Simultaneous-edit semantics of the rewrite loop

The loop applies edits in descending `(line, column)` order so column offsets
of pending edits never shift.  Its effect equals a *simultaneous* replacement:
each matching span of the original line is replaced (by quote + new value +
quote, derived from the original line), all text outside the spans being the
original bytes. -/

/-- Simultaneous application, to one original line, of an
ascending-by-column list of disjoint edits: replace each span
`[start_col, end_col)` by its replacement, keeping the original bytes in
between. -/
def simulEdits (container_tag origLine : List Char) : List BaseImageLocation → List Char
  | [] => origLine
  | bi :: asc =>
      origLine.take bi.start_col ++ replFor container_tag origLine bi ++
        (simulEdits container_tag origLine asc).drop bi.end_col

/-- One in-memory edit of the loop body. -/
def applyEditTo (container_tag line : List Char) (bi : BaseImageLocation) : List Char :=
  line.take bi.start_col ++ replFor container_tag line bi ++ line.drop bi.end_col

/-- The replacement computed for an edit only depends on the line up to the
edit's `end_col` (the quote is read at columns `start_col .. start_col + 2`,
inside the span when `start_col + 3 ≤ end_col`). -/
theorem replFor_locality (container_tag : List Char) (bi : BaseImageLocation)
    (l₁ l₂ : List Char) (hspan : bi.start_col + 3 ≤ bi.end_col)
    (hpre : l₁.take bi.end_col = l₂.take bi.end_col) :
    replFor container_tag l₁ bi = replFor container_tag l₂ bi := by
  have htake3 : l₁.take (bi.start_col + 3) = l₂.take (bi.start_col + 3) := by
    have h₁ : l₁.take (bi.start_col + 3) = (l₁.take bi.end_col).take (bi.start_col + 3) := by
      rw [List.take_take, Nat.min_eq_left hspan]
    have h₂ : l₂.take (bi.start_col + 3) = (l₂.take bi.end_col).take (bi.start_col + 3) := by
      rw [List.take_take, Nat.min_eq_left hspan]
    rw [h₁, h₂, hpre]
  have hget : l₁.get? bi.start_col = l₂.get? bi.start_col := by
    have h₁ : l₁.get? bi.start_col = (l₁.take (bi.start_col + 3)).get? bi.start_col := by
      rw [List.get?_take (by omega)]
    have h₂ : l₂.get? bi.start_col = (l₂.take (bi.start_col + 3)).get? bi.start_col := by
      rw [List.get?_take (by omega)]
    rw [h₁, h₂, htake3]
  have hslice : pySlice l₁ (bi.start_col + 1) (bi.start_col + 3) =
      pySlice l₂ (bi.start_col + 1) (bi.start_col + 3) := by
    rw [pySlice, pySlice, htake3]
  rw [replFor, replFor, quoteFor, quoteFor, hget, hslice]

/-- Appending a final (rightmost) edit to an ascending simultaneous batch is
the same as first applying that edit to the line and then the remaining batch:
the core exchange law behind "descending order avoids offset drift". -/
theorem simulEdits_append_last (container_tag : List Char) (bi : BaseImageLocation) :
    ∀ (asc : List BaseImageLocation) (l : List Char),
      (∀ b ∈ asc, b.start_col + 3 ≤ b.end_col ∧ b.end_col ≤ bi.start_col) →
      bi.start_col + 3 ≤ bi.end_col → bi.start_col ≤ l.length →
      simulEdits container_tag l (asc ++ [bi]) =
        simulEdits container_tag (applyEditTo container_tag l bi) asc := by
  intro asc
  induction asc with
  | nil =>
      intro l _ _ _
      rw [List.nil_append, simulEdits, simulEdits, simulEdits, applyEditTo]
  | cons b asc ih =>
      intro l hall hbi hlen
      obtain ⟨hb1, hb2⟩ := hall b (List.mem_cons_self b asc)
      have htake : (applyEditTo container_tag l bi).take b.start_col = l.take b.start_col := by
        rw [applyEditTo,
          List.take_append_of_le_length
            (by rw [List.length_append, List.length_take]; omega),
          List.take_append_of_le_length (by rw [List.length_take]; omega),
          List.take_take, Nat.min_eq_left (by omega)]
      have htakeE : (applyEditTo container_tag l bi).take b.end_col = l.take b.end_col := by
        rw [applyEditTo,
          List.take_append_of_le_length
            (by rw [List.length_append, List.length_take]; omega),
          List.take_append_of_le_length (by rw [List.length_take]; omega),
          List.take_take, Nat.min_eq_left (by omega)]
      rw [List.cons_append, simulEdits, simulEdits]
      rw [ih l (fun x hx => hall x (List.mem_cons_of_mem b hx)) hbi hlen]
      rw [htake]
      rw [replFor_locality container_tag b (applyEditTo container_tag l bi) l
        hb1 htakeE]

/-- Well-formedness of one location against the in-memory line buffer:
single-line span, line index in range, span at least quote + one character
wide and inside the line. -/
def locInRange (lines : List (List Char)) (b : BaseImageLocation) : Prop :=
  b.start_line = b.end_line ∧ 1 ≤ b.start_line ∧ b.start_line ≤ lines.length ∧
    b.start_col + 3 ≤ b.end_col ∧
    b.end_col ≤ ((lines.get? (b.start_line - 1)).getD []).length

/-- Descending, disjoint order: every later edit lies strictly before, on an
earlier line or (on the same line) ending at or before this one's start. -/
def descDisjoint (a b : BaseImageLocation) : Prop :=
  b.start_line < a.start_line ∨ (b.start_line = a.start_line ∧ b.end_col ≤ a.start_col)

/-- The rewrite loop, run on a descending list of pairwise-disjoint in-range
edits, succeeds and equals the per-line *simultaneous* replacement of all the
spans: line `i` of the result is `simulEdits` of original line `i` with its
(ascending) edits, so every byte outside the replaced spans is preserved and
every listed span is replaced. -/
theorem applyOverrideEdits_spec (container_tag : List Char) :
    ∀ (E : List BaseImageLocation) (lines : List (List Char)),
      List.Pairwise descDisjoint E →
      (∀ b ∈ E, locInRange lines b) →
      ∃ newLines, applyOverrideEdits container_tag lines E = .ok newLines ∧
        newLines.length = lines.length ∧
        ∀ i, newLines.get? i = (lines.get? i).map (fun line =>
          simulEdits container_tag line
            ((E.filter (fun b => b.start_line == i + 1)).reverse)) := by
  intro E
  induction E with
  | nil =>
      intro lines _ _
      refine ⟨lines, rfl, rfl, ?_⟩
      intro i
      cases lines.get? i <;> simp [simulEdits]
  | cons e E ih =>
      intro lines hpw heach
      obtain ⟨hpwhead, hpwtail⟩ := List.pairwise_cons.mp hpw
      obtain ⟨hlineq, h1le, hlinele, hspan, hend⟩ := heach e (List.mem_cons_self e E)
      have hidx : e.start_line - 1 < lines.length := by omega
      have hline : lines.get? (e.start_line - 1) =
          some (lines.get ⟨e.start_line - 1, hidx⟩) := by
        simp [List.get?_eq_getElem?, List.getElem?_eq_getElem hidx, List.get_eq_getElem]
      set line := lines.get ⟨e.start_line - 1, hidx⟩ with hlinedef
      have hendline : e.end_col ≤ line.length := by
        rw [hline] at hend
        simpa using hend
      have hcol : e.start_col < line.length := by omega
      have hqc : line.get? e.start_col = some (line.get ⟨e.start_col, hcol⟩) := by
        simp [List.get?_eq_getElem?, List.getElem?_eq_getElem hcol, List.get_eq_getElem]
      have hstep : applyOverrideEdits container_tag lines (e :: E) =
          applyOverrideEdits container_tag
            (lines.set (e.start_line - 1) (applyEditTo container_tag line e)) E := by
        rw [applyOverrideEdits]
        rw [if_neg (by omega)]
        simp only [hline, hqc]
        rfl
      have hsetlen : (lines.set (e.start_line - 1)
          (applyEditTo container_tag line e)).length = lines.length := by
        simp
      have heach2 : ∀ b ∈ E, locInRange
          (lines.set (e.start_line - 1) (applyEditTo container_tag line e)) b := by
        intro b hb
        obtain ⟨hb1, hb2, hb3, hb4, hb5⟩ := heach b (List.mem_cons_of_mem e hb)
        have hdisj := hpwhead b hb
        refine ⟨hb1, hb2, by omega, hb4, ?_⟩
        by_cases hsame : b.start_line = e.start_line
        · have : b.end_col ≤ e.start_col := by
            rcases hdisj with h | h
            · omega
            · exact h.2
          rw [hsame, List.get?_set_eq_of_lt _ hidx]
          have : e.start_col ≤ (applyEditTo container_tag line e).length := by
            rw [applyEditTo]
            rw [List.length_append, List.length_append, List.length_take]
            omega
          simpa using by omega
        · have hne : e.start_line - 1 ≠ b.start_line - 1 := by omega
          rw [List.get?_set_ne _ _ hne]
          exact hb5
      obtain ⟨newLines, happ, hlen, hpoint⟩ := ih
        (lines.set (e.start_line - 1) (applyEditTo container_tag line e)) hpwtail heach2
      refine ⟨newLines, by rw [hstep]; exact happ, by rw [hlen, hsetlen], ?_⟩
      intro i
      by_cases hi : i = e.start_line - 1
      · subst hi
        have hfilter : ((e :: E).filter
              (fun b => b.start_line == e.start_line - 1 + 1)).reverse =
            (E.filter (fun b => b.start_line == e.start_line - 1 + 1)).reverse ++ [e] := by
          rw [List.filter_cons]
          have : (e.start_line == e.start_line - 1 + 1) = true := by
            simp only [beq_iff_eq]
            omega
          rw [if_pos this, List.reverse_cons]
        rw [hfilter, hpoint (e.start_line - 1), hline,
          List.get?_set_eq_of_lt _ hidx]
        rw [Option.map_some', Option.map_some']
        congr 1
        have hallasc : ∀ b ∈ (E.filter
            (fun b => b.start_line == e.start_line - 1 + 1)).reverse,
            b.start_col + 3 ≤ b.end_col ∧ b.end_col ≤ e.start_col := by
          intro b hb
          rw [List.mem_reverse] at hb
          have hbE := List.mem_of_mem_filter hb
          have hbl := List.of_mem_filter hb
          rw [beq_iff_eq] at hbl
          obtain ⟨_, _, _, hb4, _⟩ := heach b (List.mem_cons_of_mem e hbE)
          have hdisj := hpwhead b hbE
          refine ⟨hb4, ?_⟩
          rcases hdisj with h | h
          · omega
          · exact h.2
        exact (simulEdits_append_last container_tag e _ line hallasc hspan
          (by omega)).symm
      · have hfilter : (e :: E).filter (fun b => b.start_line == i + 1) =
            E.filter (fun b => b.start_line == i + 1) := by
          rw [List.filter_cons]
          have : (e.start_line == i + 1) = false := by
            simp only [beq_eq_false_iff_ne]
            omega
          rw [this]
          simp
        rw [hfilter, hpoint i, List.get?_set_ne _ _ (by omega)]

/-- Ascending, disjoint source order (the order the locator reports
occurrences in): each edit lies strictly before the next. -/
def ascDisjoint (a b : BaseImageLocation) : Prop :=
  descDisjoint b a

/-- Strictly ascending `(start_line, start_col)` keys. -/
def keyLt (a b : BaseImageLocation) : Prop :=
  a.start_line < b.start_line ∨
    (a.start_line = b.start_line ∧ a.start_col < b.start_col)

instance (a b : BaseImageLocation) : Decidable (descDisjoint a b) := by
  unfold descDisjoint
  infer_instance

instance (a b : BaseImageLocation) : Decidable (ascDisjoint a b) := by
  unfold ascDisjoint descDisjoint
  infer_instance

instance (lines : List (List Char)) (b : BaseImageLocation) :
    Decidable (locInRange lines b) := by
  unfold locInRange
  infer_instance

instance (a b : BaseImageLocation) : Decidable (keyLt a b) := by
  unfold keyLt
  infer_instance

/-- Inserting an element whose key is smaller than every key of a descending
list appends it at the end. -/
theorem insertDescBy_all_gt (x : BaseImageLocation) :
    ∀ l : List BaseImageLocation, (∀ y ∈ l, keyLt x y) → insertDescBy x l = l ++ [x] := by
  intro l
  induction l with
  | nil => intro _; rfl
  | cons y ys ih =>
      intro h
      have hxy := h y (List.mem_cons_self y ys)
      have hge : keyGe (locKey x) (locKey y) = false := by
        rcases hxy with h' | ⟨h1, h2⟩
        · simp [keyGe, locKey]
          omega
        · simp [keyGe, locKey]
          omega
      rw [insertDescBy, hge]
      simp only [Bool.false_eq_true, if_false]
      rw [ih (fun z hz => h z (List.mem_cons_of_mem y hz))]
      rfl

/-- Python's stable `sorted(..., reverse=True)` of a strictly ascending list
is its reverse. -/
theorem sortDescBy_of_ascending :
    ∀ l : List BaseImageLocation, List.Pairwise keyLt l → sortDescBy l = l.reverse := by
  intro l
  induction l with
  | nil => intro _; rfl
  | cons x xs ih =>
      intro h
      obtain ⟨hx, hxs⟩ := List.pairwise_cons.mp h
      rw [sortDescBy, ih hxs, insertDescBy_all_gt x xs.reverse
        (fun y hy => hx y (List.mem_reverse.mp hy)), List.reverse_cons]

/-- All elements of `a` satisfy `p`: `dropWhile` skips the whole of `a`. -/
theorem dropWhile_append_of_all (p : Char → Bool) (b : List Char) :
    ∀ a : List Char, (∀ c ∈ a, p c = true) → (a ++ b).dropWhile p = b.dropWhile p := by
  intro a
  induction a with
  | nil => intro _; rfl
  | cons c t ih =>
      intro h
      rw [List.cons_append, List.dropWhile_cons,
        if_pos (h c (List.mem_cons_self c t))]
      exact ih (fun d hd => h d (List.mem_cons_of_mem c hd))

/-- `value.rsplit(":", 1)[0]` splits at the *last* colon: when the tail after
a separating colon is colon-free, the part before it is returned whole (even
if it itself contains colons). -/
theorem rsplitLastColonPre_sep (stem tail : List Char)
    (h : ∀ c ∈ tail, c ≠ ':') :
    rsplitLastColonPre (stem ++ ':' :: tail) = stem := by
  have hc : (stem ++ ':' :: tail).contains ':' = true :=
    List.elem_eq_true_of_mem (by simp)
  rw [rsplitLastColonPre, if_pos hc]
  rw [List.reverse_append, List.reverse_cons]
  rw [List.append_assoc, List.singleton_append]
  rw [dropWhile_append_of_all _ _ tail.reverse
    (fun c hcm => by
      have := h c (List.mem_reverse.mp hcm)
      simpa using this)]
  rw [List.dropWhile_cons, if_neg (by simp)]
  rw [List.drop_one, List.tail_cons, List.reverse_reverse]

/-- A matching literal's value splits as `stem ++ ":main"`, and the computed
new value replaces exactly the tag portion after the final colon:
`stem ++ ":" ++ container_tag`. -/
theorem newValueFor_matching (container_tag imagePrefix : List Char)
    (bi : BaseImageLocation) (h : matchesOverride imagePrefix bi = true) :
    ∃ stem, bi.value = stem ++ ":main".toList ∧
      newValueFor container_tag bi = stem ++ ':' :: container_tag := by
  have hsuf : ":main".toList <:+ bi.value := by
    rw [matchesOverride, Bool.and_eq_true] at h
    exact List.isSuffixOf_iff_suffix.mp h.2
  obtain ⟨stem, hstem⟩ := hsuf
  refine ⟨stem, hstem.symm, ?_⟩
  rw [newValueFor, ← hstem]
  have : (":main".toList : List Char) = ':' :: "main".toList := rfl
  rw [this, rsplitLastColonPre_sep stem "main".toList (by decide)]

/-- C4: with a valid tag and a locator result whose matching locations (value
starting with `imagePrefix ++ "-"` and ending in `":main"`) are single-line,
in-range, pairwise disjoint and reported in ascending source order,
`override_file_images` (non-dry-run) succeeds with `was_modified = true` and
writes back exactly the per-line simultaneous replacement of *all* matching
spans: line `i` of the new file is original line `i` with each matching span
on it replaced by quote + (stem + ":" + tag) + quote — several spans on one
line included — and every byte outside the replaced spans, in particular
every non-matching literal, is preserved. -/
theorem override_rewrites_all_matching (content : List Char)
    (locs : List BaseImageLocation) (container_tag imagePrefix : List Char)
    (htag : tagValid container_tag = true)
    (hne : locs.filter (matchesOverride imagePrefix) ≠ [])
    (hasc : List.Pairwise ascDisjoint (locs.filter (matchesOverride imagePrefix)))
    (hrange : ∀ b ∈ locs.filter (matchesOverride imagePrefix),
      locInRange (splitLinesKeepEnds content) b) :
    ∃ newLines : List (List Char),
      override_file_images content (.ok locs) container_tag imagePrefix false =
        (.ok (true, some newLines.flatten), newLines.flatten) ∧
      newLines.length = (splitLinesKeepEnds content).length ∧
      (∀ i, newLines.get? i = ((splitLinesKeepEnds content).get? i).map
        (fun line => simulEdits container_tag line
          ((locs.filter (matchesOverride imagePrefix)).filter
            (fun b => b.start_line == i + 1)))) ∧
      (∀ bi ∈ locs.filter (matchesOverride imagePrefix), ∃ stem,
        bi.value = stem ++ ":main".toList ∧
        newValueFor container_tag bi = stem ++ ':' :: container_tag) := by
  set to_replace := locs.filter (matchesOverride imagePrefix) with hrep
  have hkeys : List.Pairwise keyLt to_replace := by
    refine hasc.imp_of_mem ?_
    intro a b ha hb hab
    have hra := hrange a ha
    rcases hab with h | ⟨h1, h2⟩
    · exact Or.inl h
    · right
      refine ⟨h1, ?_⟩
      have := hra.2.2.2.1
      omega
  have hsort : sortDescBy to_replace = to_replace.reverse :=
    sortDescBy_of_ascending to_replace hkeys
  have hdesc : List.Pairwise descDisjoint to_replace.reverse := by
    rw [List.pairwise_reverse]
    exact hasc
  have hrange2 : ∀ b ∈ to_replace.reverse, locInRange (splitLinesKeepEnds content) b :=
    fun b hb => hrange b (List.mem_reverse.mp hb)
  obtain ⟨newLines, happ, hlen, hpoint⟩ :=
    applyOverrideEdits_spec container_tag to_replace.reverse
      (splitLinesKeepEnds content) hdesc hrange2
  refine ⟨newLines, ?_, hlen, ?_, ?_⟩
  · rw [override_file_images, htag]
    simp only [Bool.not_true, Bool.false_eq_true, if_false]
    have hempty : to_replace.isEmpty = false := by
      cases hrepn : to_replace with
      | nil => exact absurd hrepn hne
      | cons a l => rfl
    rw [← hrep]
    simp only [hempty, Bool.false_eq_true, if_false]
    rw [hsort, happ]
  · intro i
    rw [hpoint i]
    congr 1
    funext line
    rw [List.filter_reverse, List.reverse_reverse]
  · intro bi hbi
    exact newValueFor_matching container_tag imagePrefix bi (List.of_mem_filter hbi)

/-- C4 (witness): `override_rewrites_all_matching` applied to a concrete file
with two matching literals on the same source line. -/
theorem override_rewrites_all_matching_witness :
    ∃ newLines : List (List Char),
      override_file_images "a = \"p-x:main\"; b = \"p-y:main\"\n".toList
          (.ok [⟨"f".toList, "p-x:main".toList, 1, 4, 1, 14⟩,
            ⟨"g".toList, "p-y:main".toList, 1, 20, 1, 30⟩])
          "v2".toList "p".toList false =
        (.ok (true, some newLines.flatten), newLines.flatten) ∧
      newLines.length =
        (splitLinesKeepEnds "a = \"p-x:main\"; b = \"p-y:main\"\n".toList).length ∧
      (∀ i, newLines.get? i =
        ((splitLinesKeepEnds "a = \"p-x:main\"; b = \"p-y:main\"\n".toList).get? i).map
          (fun line => simulEdits "v2".toList line
            (([⟨"f".toList, "p-x:main".toList, 1, 4, 1, 14⟩,
                (⟨"g".toList, "p-y:main".toList, 1, 20, 1, 30⟩ : BaseImageLocation)].filter
                  (matchesOverride "p".toList)).filter
              (fun b => b.start_line == i + 1)))) ∧
      (∀ bi ∈ [⟨"f".toList, "p-x:main".toList, 1, 4, 1, 14⟩,
          (⟨"g".toList, "p-y:main".toList, 1, 20, 1, 30⟩ : BaseImageLocation)].filter
            (matchesOverride "p".toList), ∃ stem,
        bi.value = stem ++ ":main".toList ∧
        newValueFor "v2".toList bi = stem ++ ':' :: "v2".toList) :=
  override_rewrites_all_matching _ _ _ _ (by decide) (by decide) (by decide) (by decide)

/-- C5: for each of the four Python quote styles — `q ∈ {', "}` with `k = 1`
(single-character quote) or `k = 3` (triple quote) — rewriting a matching
literal written as `quote value quote` re-derives exactly the same quote
string from the character at the recorded opening-quote column (triple iff
the two following characters repeat it, which holds precisely for the
triple-quoted styles here) and produces the line with only the literal's tag
portion changed, the same quote style around it. -/
theorem override_preserves_quote_style
    (pre post value container_tag fn : List Char) (q : Char) (k : Nat)
    (_hq : q = '\'' ∨ q = '\"') (hk : k = 1 ∨ k = 3) (hlen2 : 2 ≤ value.length)
    (hdet : k = 1 → value.take 2 ≠ [q, q]) :
    quoteFor (pre ++ List.replicate k q ++ value ++ List.replicate k q ++ post)
        ⟨fn, value, 1, pre.length, 1, pre.length + (2 * k + value.length)⟩ =
      List.replicate k q ∧
    applyOverrideEdits container_tag
        [pre ++ List.replicate k q ++ value ++ List.replicate k q ++ post]
        [⟨fn, value, 1, pre.length, 1, pre.length + (2 * k + value.length)⟩] =
      .ok [pre ++ List.replicate k q ++
        newValueFor container_tag ⟨fn, value, 1, pre.length, 1,
          pre.length + (2 * k + value.length)⟩ ++ List.replicate k q ++ post] := by
  have hassoc : pre ++ List.replicate k q ++ value ++ List.replicate k q ++ post =
      pre ++ (List.replicate k q ++ (value ++ (List.replicate k q ++ post))) := by
    simp [List.append_assoc]
  have hget : (pre ++ List.replicate k q ++ value ++ List.replicate k q ++ post).get?
      pre.length = some q := by
    rw [hassoc, List.get?_append_right (Nat.le_refl _), Nat.sub_self]
    rcases hk with h | h <;> subst h <;> rfl
  have hslice : pySlice (pre ++ List.replicate k q ++ value ++ List.replicate k q ++ post)
      (pre.length + 1) (pre.length + 3) =
      ((List.replicate k q ++ (value ++ (List.replicate k q ++ post))).take 3).drop 1 := by
    rw [hassoc, pySlice, List.take_append_eq_append_take, List.take_of_length_le (by omega),
      Nat.add_sub_cancel_left, List.drop_append_eq_append_drop,
      List.drop_of_length_le (by omega), Nat.add_sub_cancel_left]
    simp
  have hquote : quoteFor (pre ++ List.replicate k q ++ value ++ List.replicate k q ++ post)
      ⟨fn, value, 1, pre.length, 1, pre.length + (2 * k + value.length)⟩ =
      List.replicate k q := by
    rw [quoteFor]
    simp only [hget]
    rcases hk with h | h <;> subst h
    · rw [hslice]
      simp only [List.replicate, List.cons_append, List.nil_append, List.take_succ_cons,
        List.drop_succ_cons, List.drop_zero]
      have hv2 : (value ++ q :: post).take 2 = value.take 2 := by
        rw [List.take_append_eq_append_take, Nat.sub_eq_zero_of_le hlen2,
          List.take_zero, List.append_nil]
      rw [if_neg (fun hcontra => hdet rfl (hv2.symm.trans hcontra))]
    · rw [hslice]
      simp [List.replicate]
  refine ⟨hquote, ?_⟩
  rw [applyOverrideEdits]
  rw [if_neg (by simp)]
  have hl0 : [pre ++ List.replicate k q ++ value ++ List.replicate k q ++ post].get? 0 =
      some (pre ++ List.replicate k q ++ value ++ List.replicate k q ++ post) := rfl
  simp only [Nat.sub_self, hl0, hget]
  have htakepre : (pre ++ List.replicate k q ++ value ++ List.replicate k q ++ post).take
      pre.length = pre := by
    rw [hassoc, List.take_append_eq_append_take, List.take_length, Nat.sub_self,
      List.take_zero, List.append_nil]
  have hdroppost : (pre ++ List.replicate k q ++ value ++ List.replicate k q ++ post).drop
      (pre.length + (2 * k + value.length)) = post := by
    have h2 : pre ++ List.replicate k q ++ value ++ List.replicate k q ++ post =
        (pre ++ List.replicate k q ++ value ++ List.replicate k q) ++ post := by
      simp [List.append_assoc]
    rw [h2, List.drop_append_eq_append_drop,
      List.drop_of_length_le (by simp; omega),
      List.nil_append]
    have hlen : (pre ++ List.replicate k q ++ value ++ List.replicate k q).length =
        pre.length + (2 * k + value.length) := by
      simp
      omega
    rw [hlen, Nat.sub_self, List.drop_zero]
  rw [replFor, hquote, htakepre, hdroppost]
  rw [List.set]
  rw [applyOverrideEdits]
  simp [List.append_assoc]

/-- C5 (witness): `override_preserves_quote_style` applied to a concrete
single-quoted literal and to a concrete triple-double-quoted literal. -/
theorem override_preserves_quote_style_witness :
    (quoteFor ("x = ".toList ++ List.replicate 1 '\'' ++ "p-a:main".toList ++
          List.replicate 1 '\'' ++ "\n".toList)
        ⟨"f".toList, "p-a:main".toList, 1, "x = ".toList.length, 1,
          "x = ".toList.length + (2 * 1 + "p-a:main".toList.length)⟩ =
        List.replicate 1 '\'' ∧
      applyOverrideEdits "v2".toList
          ["x = ".toList ++ List.replicate 1 '\'' ++ "p-a:main".toList ++
            List.replicate 1 '\'' ++ "\n".toList]
          [⟨"f".toList, "p-a:main".toList, 1, "x = ".toList.length, 1,
            "x = ".toList.length + (2 * 1 + "p-a:main".toList.length)⟩] =
        .ok ["x = ".toList ++ List.replicate 1 '\'' ++
          newValueFor "v2".toList ⟨"f".toList, "p-a:main".toList, 1,
            "x = ".toList.length, 1,
            "x = ".toList.length + (2 * 1 + "p-a:main".toList.length)⟩ ++
          List.replicate 1 '\'' ++ "\n".toList]) ∧
    (quoteFor ("x = ".toList ++ List.replicate 3 '\"' ++ "p-a:main".toList ++
          List.replicate 3 '\"' ++ "\n".toList)
        ⟨"f".toList, "p-a:main".toList, 1, "x = ".toList.length, 1,
          "x = ".toList.length + (2 * 3 + "p-a:main".toList.length)⟩ =
        List.replicate 3 '\"' ∧
      applyOverrideEdits "v2".toList
          ["x = ".toList ++ List.replicate 3 '\"' ++ "p-a:main".toList ++
            List.replicate 3 '\"' ++ "\n".toList]
          [⟨"f".toList, "p-a:main".toList, 1, "x = ".toList.length, 1,
            "x = ".toList.length + (2 * 3 + "p-a:main".toList.length)⟩] =
        .ok ["x = ".toList ++ List.replicate 3 '\"' ++
          newValueFor "v2".toList ⟨"f".toList, "p-a:main".toList, 1,
            "x = ".toList.length, 1,
            "x = ".toList.length + (2 * 3 + "p-a:main".toList.length)⟩ ++
          List.replicate 3 '\"' ++ "\n".toList]) :=
  ⟨override_preserves_quote_style "x = ".toList "\n".toList "p-a:main".toList
      "v2".toList "f".toList '\'' 1 (Or.inl rfl) (Or.inl rfl) (by decide)
      (fun _ => by decide),
    override_preserves_quote_style "x = ".toList "\n".toList "p-a:main".toList
      "v2".toList "f".toList '\"' 3 (Or.inr rfl) (Or.inr rfl) (by decide)
      (fun h => absurd h (by decide))⟩

/-- After rewriting to a valid tag other than `main`, the value
`stem ++ ":" ++ tag` no longer ends in `":main"`: the colon of a would-be
`":main"` suffix would have to sit inside the colon-free tag, or force
`tag = "main"`. -/
theorem not_suffix_main_of_ne_main (container_tag stem : List Char)
    (htag : tagValid container_tag = true) (hmain : container_tag ≠ "main".toList) :
    ¬ (":main".toList <:+ stem ++ ':' :: container_tag) := by
  intro hsuf
  obtain ⟨hne, hchars⟩ := tagValid_chars container_tag htag
  have hIn : ∀ c ∈ container_tag, c ≠ ':' := by
    intro c hc he
    have := hchars c hc
    rw [he] at this
    exact absurd this (by decide)
  have hsuf2 : ':' :: container_tag <:+ stem ++ ':' :: container_tag :=
    List.suffix_append stem (':' :: container_tag)
  rcases List.suffix_or_suffix_of_suffix hsuf hsuf2 with h | h
  · obtain ⟨u, hu⟩ := h
    cases u with
    | nil =>
        simp only [List.nil_append] at hu
        injection hu with h1 h2
        exact hmain h2.symm
    | cons x u' =>
        simp only [List.cons_append] at hu
        injection hu with h1 h2
        have : ':' ∈ container_tag := by
          rw [← h2]
          exact List.mem_append_right u' (by decide)
        exact hIn ':' this rfl
  · obtain ⟨u, hu⟩ := h
    have hlenu : u.length + (container_tag.length + 1) = 5 := by
      simpa using congrArg List.length hu
    rcases u with _ | ⟨a, _ | ⟨b, _ | ⟨c, _ | ⟨d, _ | ⟨x, rest⟩⟩⟩⟩⟩
    · simp only [List.nil_append] at hu
      injection hu with h1 h2
      exact hmain h2
    · simp only [List.cons_append, List.nil_append] at hu
      injection hu with h1 h2
      injection h2 with h3 _
      exact absurd h3 (by decide)
    · simp only [List.cons_append, List.nil_append] at hu
      injection hu with h1 h2
      injection h2 with h3 h4
      injection h4 with h5 _
      exact absurd h5 (by decide)
    · simp only [List.cons_append, List.nil_append] at hu
      injection hu with h1 h2
      injection h2 with h3 h4
      injection h4 with h5 h6
      injection h6 with h7 _
      exact absurd h7 (by decide)
    · simp only [List.cons_append, List.nil_append] at hu
      injection hu with h1 h2
      injection h2 with h3 h4
      injection h4 with h5 h6
      injection h6 with h7 h8
      injection h8 with h9 _
      exact absurd h9 (by decide)
    · simp only [List.length_cons] at hlenu
      omega

/-- C6 (counterexample): the claim "a file whose matching literals already
carry the target tag is a no-op returning `was_modified=False`" fails for
`container_tag = "main"`: the literal `"p-a:main"` already carries the target
tag, yet the call reports `was_modified = True` (rewriting the file to its
identical contents), because candidacy only tests for the `:main` sentinel
and never compares against the target tag. -/
theorem c6_main_tag_counterexample :
    override_file_images "x = \"p-a:main\"\n".toList
        (.ok [⟨"f".toList, "p-a:main".toList, 1, 4, 1, 14⟩])
        "main".toList "p".toList false =
      (.ok (true, some "x = \"p-a:main\"\n".toList), "x = \"p-a:main\"\n".toList) := by
  rfl

/-- C6 (amended): for every container tag *other than the sentinel `main`*,
re-running `override_file_images` on the output of a successful rewrite — the
file whose previously matching literals now carry `":" ++ container_tag` — is
a no-op: it returns `was_modified = False` with `None` content and leaves the
file unchanged.  (For `container_tag = "main"` the rewrite is textually the
identity but still reports `was_modified = True`.) -/
theorem override_second_run_noop (nc : List Char) (locs : List BaseImageLocation)
    (container_tag imagePrefix : List Char) (dry_run : Bool)
    (htag : tagValid container_tag = true)
    (hmain : container_tag ≠ "main".toList) :
    override_file_images nc
        (.ok (locs.map (fun bi =>
          if matchesOverride imagePrefix bi then
            { bi with value := newValueFor container_tag bi }
          else bi)))
        container_tag imagePrefix dry_run =
      (.ok (false, none), nc) := by
  have hfilter : (locs.map (fun bi =>
      if matchesOverride imagePrefix bi then
        { bi with value := newValueFor container_tag bi }
      else bi)).filter (matchesOverride imagePrefix) = [] := by
    rw [List.filter_eq_nil_iff]
    intro b hb
    rw [List.mem_map] at hb
    obtain ⟨bi, hbi, hfb⟩ := hb
    subst hfb
    cases hm : matchesOverride imagePrefix bi with
    | false => simp [hm]
    | true =>
        simp only [hm, if_true]
        obtain ⟨stem, hstem, hnew⟩ := newValueFor_matching container_tag imagePrefix bi hm
        intro hcontra
        rw [matchesOverride, Bool.and_eq_true] at hcontra
        have hsuf : ":main".toList <:+ stem ++ ':' :: container_tag := by
          have := hcontra.2
          rw [List.isSuffixOf_iff_suffix] at this
          simpa [hnew] using this
        exact not_suffix_main_of_ne_main container_tag stem htag hmain hsuf
  rw [override_file_images, htag]
  simp only [Bool.not_true, Bool.false_eq_true, if_false]
  rw [hfilter]
  rfl

/-- C6 (witness): `override_second_run_noop` applied with the concrete tag
`"v2"` to the rewritten form of a one-literal file. -/
theorem override_second_run_noop_witness :
    override_file_images "x = \"p-a:v2\"\n".toList
        (.ok ([⟨"f".toList, "p-a:main".toList, 1, 4, 1, 14⟩].map (fun bi =>
          if matchesOverride "p".toList bi then
            { bi with value := newValueFor "v2".toList bi }
          else bi)))
        "v2".toList "p".toList false =
      (.ok (false, none), "x = \"p-a:v2\"\n".toList) :=
  override_second_run_noop "x = \"p-a:v2\"\n".toList
    [⟨"f".toList, "p-a:main".toList, 1, 4, 1, 14⟩] "v2".toList "p".toList false
    (by decide) (by decide)

end PipelinesComponents
